import Mathlib

/-!
Verification of the succinct rank/select core of the `bsuccinct-rs` repository:
the `ArrayWithRankSelect101111` rank/select bit array (`bitm/src/rank_select/mod.rs`),
the Elias-Fano sequence (`cseq/src/elias_fano.rs`) and the wavelet matrix
(`cseq/src/wm.rs`).

Machine integers (`u64`, `usize`) are embedded as `Nat`; all stored 64-bit words
are treated through operations that only inspect bits `0..63`, which agrees with
`u64` semantics for words `< 2^64`.  A Rust panic is modelled as `Option.none`
(or as the outer `none` of a nested option when the function also returns an
`Option` on its non-panicking paths).  Rust slices `Box<[u64]>` are `List Nat`.
-/

namespace BSuccinct

/-! ## Word-level bit primitives

`bitm`'s `utils.rs` and the `BitAccess`/`BitVec` traits are not part of the
provided sources; the definitions in this section are modelled from the spec
(sections 3, 4.1 and 4.2): a bit array stores bit `i` in word `i / 64` at
in-word position `i % 64`, LSB first. -/

/-- Number of set bits among bits `0..63` of a word (`u64::count_ones`). -/
def popcount64 (w : Nat) : Nat := (List.range 64).countP (fun i => w.testBit i)

/-- Modelled from the spec: `bitm`'s `utils.rs` (absent from `src/`) provides
`n_lowest_bits n`, the mask with the `n` lowest bits set. -/
def n_lowest_bits (n : Nat) : Nat := 2 ^ n - 1

/-- Modelled from the spec: `BitAccess::get_bit` of `bitm` (absent from `src/`):
bit `i` of a word array resides in word `i / 64` at position `i % 64`.
Out-of-bounds words read as zero (the real code would panic; every verified
use is in bounds). -/
def get_bit (words : List Nat) (i : Nat) : Bool :=
  (words.getD (i / 64) 0).testBit (i % 64)

/-- Modelled from the spec: `BitAccess::set_bit` of `bitm` (absent from `src/`). -/
def set_bit (words : List Nat) (i : Nat) : List Nat :=
  words.set (i / 64) (words.getD (i / 64) 0 ||| (1 <<< (i % 64)))

/-- Modelled from the spec: `BitVec::with_zeroed_bits n` of `bitm` (absent from
`src/`) allocates `⌈n/64⌉` zero words. -/
def with_zeroed_bits (n : Nat) : List Nat := List.replicate ((n + 63) / 64) 0

/-- Number of ones among the first `i` bits of the word array: the reference
("naive") rank against which the directory-based rank is verified. -/
def rank_naive (words : List Nat) (i : Nat) : Nat :=
  (List.range i).countP (fun j => get_bit words j)

/-- `count_bits_in` of `rank_select/mod.rs`: total popcount of a word slice. -/
def count_bits_in (ws : List Nat) : Nat := (ws.map popcount64).sum

/-! ## Chunking

`slice::chunks n` of Rust, used by `ArrayWithRankSelect101111::build`.
Implemented with fuel so that it is structural (and hence kernel-reducible);
`chunks_cons` recovers the defining equation. -/

def chunksF (n : Nat) : Nat → List α → List (List α)
  | _, [] => []
  | 0, x :: xs => [x :: xs]
  | fuel + 1, x :: xs =>
    if n < (x :: xs).length then
      (x :: xs).take n :: chunksF n fuel ((x :: xs).drop n)
    else [x :: xs]

/-- `xs.chunks n`: split into consecutive chunks of `n` elements, the last chunk
possibly shorter.  (For `n = 0` this is junk; all uses have `n > 0`.) -/
def chunks (n : Nat) (xs : List α) : List (List α) := chunksF n xs.length xs

/-! ## The rank directory (`bitm/src/rank_select/mod.rs`)

`ArrayWithRankSelect101111::build` walks L1 chunks of `2^32` bits
(`U64_PER_L1_ENTRY = 67108864` words), within them L2 chunks of 2048 bits
(`U64_PER_L2_ENTRY = 32` words), within them sub-blocks of 512 bits
(`U64_PER_L2_RECORDS = 8` words); the three constants live in the absent
`select.rs` but are fixed by the spec (§3) and the comments of `mod.rs`. -/

/-- One iteration of the inner loop of `build`: the packed L2 entry for one
32-word chunk together with the updated running in-L1-block rank.  The match
mirrors the source's `if let Some(v) = vals.next()` chain over the sub-block
popcounts; shifts `54 = 32+11+11` and `43 = 32+11`. -/
def l2_entry (current_rank : Nat) (chunk : List Nat) : Nat × Nat :=
  match (chunks 8 chunk).map count_bits_in with
  | [] => (current_rank ||| ((4294967295 : Nat) <<< 32), current_rank)
  | [v0] => (current_rank ||| (v0 <<< 54) ||| (((1 <<< 22) - 1) <<< 32), current_rank + v0)
  | [v0, v1] =>
    (current_rank ||| (v0 <<< 54) ||| ((v0 + v1) <<< 43) ||| (((1 <<< 11) - 1) <<< 32),
     current_rank + (v0 + v1))
  | [v0, v1, v2] =>
    (current_rank ||| (v0 <<< 54) ||| ((v0 + v1) <<< 43) ||| ((v0 + v1 + v2) <<< 32),
     current_rank + (v0 + v1 + v2))
  | v0 :: v1 :: v2 :: v3 :: _ =>
    (current_rank ||| (v0 <<< 54) ||| ((v0 + v1) <<< 43) ||| ((v0 + v1 + v2) <<< 32),
     current_rank + (v0 + v1 + v2 + v3))

/-- Inner loop of `build` over the L2 chunks of one L1 chunk: the emitted
entries and the final in-L1-block rank. -/
def build_l2 (current_rank : Nat) : List (List Nat) → List Nat × Nat
  | [] => ([], current_rank)
  | c :: cs =>
    let er := l2_entry current_rank c
    let rest := build_l2 er.2 cs
    (er.1 :: rest.1, rest.2)

/-- Outer loop of `build` over L1 chunks (the source pushes onto growing
vectors; cons/append recursion produces the same lists). -/
def build_go (total : Nat) : List (List Nat) → List Nat × List Nat × Nat
  | [] => ([], [], total)
  | c :: cs =>
    let er := build_l2 0 (chunks 32 c)
    let rest := build_go (total + er.2) cs
    (total :: rest.1, er.1 ++ rest.2.1, rest.2.2)

/-- `ArrayWithRankSelect101111::build`: `(l1ranks, l2ranks, total_rank)`. -/
def build (content : List Nat) : List Nat × List Nat × Nat :=
  build_go 0 (chunks 67108864 content)

/-- The rank/select bit array: payload plus the two directory levels.  The two
select-policy fields of the Rust struct are stateless search strategies
(modelled separately, see `binary_rank_search_select` and
`combined_sampling_select`). -/
structure ArrayWithRankSelect101111 where
  content : List Nat
  l1ranks : List Nat
  l2ranks : List Nat

/-- `From<Box<[u64]>>`: build the directory over the payload. -/
def ArrayWithRankSelect101111.ofContent (content : List Nat) : ArrayWithRankSelect101111 :=
  ⟨content, (build content).1, (build content).2.1⟩

/-- `Rank::try_rank` for `ArrayWithRankSelect101111` (`mod.rs` lines 94-105).
`index as u8 % 64` equals `index % 64`; `get_unchecked` accesses are modelled
with `getD` (they are in bounds whenever the initial `content` access
succeeds). -/
def ArrayWithRankSelect101111.try_rank (a : ArrayWithRankSelect101111) (index : Nat) :
    Option Nat :=
  let block := index / 512
  let word_idx := index / 64
  match a.content.get? word_idx with
  | none => none
  | some w =>
    let r0 := popcount64 (w &&& n_lowest_bits (index % 64))
    let block_content := a.l2ranks.getD (index / 2048) 0
    let r1 := r0 + a.l1ranks.getD (index / 2 ^ 32) 0 + (block_content &&& 4294967295)
    let r2 := r1 + (((block_content >>> 32) >>> (33 - 11 * (block % 4))) &&& 2047)
    some (r2 + count_bits_in ((a.content.drop (block * 8)).take (word_idx - block * 8)))

/-- `Rank::rank` for `ArrayWithRankSelect101111` (`mod.rs` lines 107-119), the
panicking variant: `none` models a panic (an out-of-bounds `l2ranks[...]`,
slice, or `content[word_idx]` indexing). -/
def ArrayWithRankSelect101111.rank (a : ArrayWithRankSelect101111) (index : Nat) :
    Option Nat :=
  let block := index / 512
  match a.l2ranks.get? (index / 2048) with
  | none => none
  | some block_content =>
    let r1 := a.l1ranks.getD (index / 2 ^ 32) 0 + (block_content &&& 4294967295)
    let r2 := r1 + (((block_content >>> 32) >>> (33 - 11 * (block % 4))) &&& 2047)
    let word_idx := index / 64
    if block * 8 ≤ word_idx ∧ word_idx ≤ a.content.length then
      match a.content.get? word_idx with
      | none => none
      | some w =>
        some (r2 + count_bits_in ((a.content.drop (block * 8)).take (word_idx - block * 8))
          + popcount64 (w &&& n_lowest_bits (index % 64)))
    else none

/-- `Rank::rank0`'s default implementation: `index - rank index` (`usize`
subtraction; in every verified use `rank index ≤ index`). -/
def ArrayWithRankSelect101111.rank0 (a : ArrayWithRankSelect101111) (index : Nat) :
    Option Nat :=
  (a.rank index).map (fun r => index - r)

/-! ## Select policies

`bitm`'s `select.rs` — the `Select`/`Select0` trait impls, `BinaryRankSearch`
and `CombinedSampling` — is absent from `src/`; the spec (§4.5, §4.6, glossary)
fixes the observable contract: `select1(k)` is the position of the k-th
(0-indexed) 1-bit, `None` when `k ≥ total ones`; `select0` symmetric over
zeros.  `BinaryRankSearch` is modelled as a fueled binary search guided by the
rank count, `CombinedSampling` by direct position lookup; both are proved to
agree (claim C5). -/

/-- Positions of the set bits of the content, in increasing order. -/
def one_positions (content : List Nat) : List Nat :=
  (List.range (64 * content.length)).filter (fun i => get_bit content i)

/-- Positions of the clear bits of the content, in increasing order. -/
def zero_positions (content : List Nat) : List Nat :=
  (List.range (64 * content.length)).filter (fun i => !get_bit content i)

/-- Modelled from the spec: the `CombinedSampling` select policy of the absent
`select.rs` (§4.6): the position of the k-th one, `None` if `k ≥` total ones. -/
def combined_sampling_select (content : List Nat) (k : Nat) : Option Nat :=
  (one_positions content).get? k

/-- Modelled from the spec: `CombinedSampling` select-zero (§4.6). -/
def combined_sampling_select0 (content : List Nat) (k : Nat) : Option Nat :=
  (zero_positions content).get? k

/-- Fueled binary search: smallest `p` in `[lo, hi)` with `k < f (p+1)`,
assuming `f` monotone and the answer lies in the interval. -/
def bsearch_go (f : Nat → Nat) (k : Nat) : Nat → Nat → Nat → Nat
  | 0, lo, _ => lo
  | fuel + 1, lo, hi =>
    if hi - lo ≤ 1 then lo
    else if f ((lo + hi) / 2) ≤ k then bsearch_go f k fuel ((lo + hi) / 2) hi
    else bsearch_go f k fuel lo ((lo + hi) / 2)

/-- Modelled from the spec: the `BinaryRankSearch` select policy of the absent
`select.rs` (§4.5): binary search for the greatest position whose rank does not
exceed `k`; `None` if `k ≥` total ones. -/
def binary_rank_search_select (content : List Nat) (k : Nat) : Option Nat :=
  if k < count_bits_in content then
    some (bsearch_go (rank_naive content) k (64 * content.length) 0 (64 * content.length))
  else none

/-- Modelled from the spec: `BinaryRankSearch` select-zero (§4.5), searching on
zero-counts `position - rank`. -/
def binary_rank_search_select0 (content : List Nat) (k : Nat) : Option Nat :=
  if k < 64 * content.length - count_bits_in content then
    some (bsearch_go (fun i => i - rank_naive content i) k
      (64 * content.length) 0 (64 * content.length))
  else none

/-! ## Remaining bit-vector primitives (modelled from the spec, §4.1–4.2) -/

/-- Little-endian numeric value of a list of bits. -/
def ofBits : List Bool → Nat
  | [] => 0
  | b :: bs => (if b then 1 else 0) + 2 * ofBits bs

/-- Modelled from the spec: `BitAccess::get_bits` of `bitm` (absent from
`src/`): the `w`-bit value starting at bit `pos` (§4.2). -/
def get_bits (words : List Nat) (pos w : Nat) : Nat :=
  ofBits ((List.range w).map (fun k => get_bit words (pos + k)))

/-- Modelled from the spec: `BitAccess::get_fragment` (absent from `src/`):
field `idx` of width `w` occupies bits `[idx*w, (idx+1)*w)` (§3, §4.2). -/
def get_fragment (words : List Nat) (idx w : Nat) : Nat :=
  get_bits words (idx * w) w

/-- Modelled from the spec: write the `w` low bits of `v` at bit position
`pos`; target bits are assumed zero, so an OR-write is faithful (§4.2). -/
def write_bits (words : List Nat) (pos v w : Nat) : List Nat :=
  (List.range w).foldl (fun ws k => if v.testBit k then set_bit ws (pos + k) else ws) words

/-- Modelled from the spec: `init_successive_fragment` of `bitm` (absent from
`src/`): write a fragment at the fragment-index cursor and advance it by one
(the Elias-Fano builder passes `current_len` as the cursor). -/
def init_successive_fragment (words : List Nat) (idx v w : Nat) : List Nat × Nat :=
  (write_bits words (idx * w) (v &&& n_lowest_bits w) w, idx + 1)

/-- Modelled from the spec: `init_successive_bits` (§4.2 `init_successive`):
write `w` bits at a running bit cursor and advance it by `w`. -/
def init_successive_bits (words : List Nat) (idx v w : Nat) : List Nat × Nat :=
  (write_bits words idx (v &&& n_lowest_bits w) w, idx + w)

/-- Modelled from the spec: `init_successive_bit`, the 1-bit special case. -/
def init_successive_bit (words : List Nat) (idx : Nat) (b : Bool) : List Nat × Nat :=
  ((if b then set_bit words idx else words), idx + 1)

/-- Modelled from the spec: `init_bit i b`, the 1-bit special case of §4.2. -/
def init_bit (words : List Nat) (i : Nat) (b : Bool) : List Nat :=
  if b then set_bit words i else words

/-- Modelled from the spec: forward scan for the first set bit at position
`≥ start` (§4.1 `find_bit_one`). -/
def find_bit_one (words : List Nat) (start : Nat) : Option Nat :=
  (one_positions words).find? (fun p => decide (start ≤ p))

/-- `find_bit_one_unchecked`: the result is undefined when no such bit exists;
modelled with a past-the-end default. -/
def find_bit_one_unchecked (words : List Nat) (start : Nat) : Nat :=
  (find_bit_one words start).getD (64 * words.length)

/-- Modelled from the spec: backward scan for the last set bit at position
`≤ start` (§4.1 `rfind_bit_one`). -/
def rfind_bit_one (words : List Nat) (start : Nat) : Option Nat :=
  ((one_positions words).filter (fun p => decide (p ≤ start))).getLast?

/-- `rfind_bit_one_unchecked`: undefined-result variant, default 0. -/
def rfind_bit_one_unchecked (words : List Nat) (start : Nat) : Nat :=
  (rfind_bit_one words start).getD 0

/-- Modelled from the spec: `trailing_zero_bits`, the position of the first
one (total bit count when the array is all zero). -/
def trailing_zero_bits (words : List Nat) : Nat :=
  (find_bit_one words 0).getD (64 * words.length)

/-- `Select`/`Select0` impls of `ArrayWithRankSelect101111` (`mod.rs` lines
81-91) delegate to the select policy; `BinaryRankSearch` is the default type
parameter (`ArrayWithRank101111`). -/
def ArrayWithRankSelect101111.try_select (a : ArrayWithRankSelect101111) (k : Nat) :
    Option Nat :=
  binary_rank_search_select a.content k

/-- `Select0` with the default `BinaryRankSearch` policy. -/
def ArrayWithRankSelect101111.try_select0 (a : ArrayWithRankSelect101111) (k : Nat) :
    Option Nat :=
  binary_rank_search_select0 a.content k

/-- `Select` with the `CombinedSampling` policy (used by `cseq`). -/
def ArrayWithRankSelect101111.try_select_cs (a : ArrayWithRankSelect101111) (k : Nat) :
    Option Nat :=
  combined_sampling_select a.content k

/-- `Select0` with the `CombinedSampling` policy (used by `cseq`). -/
def ArrayWithRankSelect101111.try_select0_cs (a : ArrayWithRankSelect101111) (k : Nat) :
    Option Nat :=
  combined_sampling_select0 a.content k

/-- `Rank::try_rank0`'s default implementation (`mod.rs` lines 26-28). -/
def ArrayWithRankSelect101111.try_rank0 (a : ArrayWithRankSelect101111) (index : Nat) :
    Option Nat :=
  (a.try_rank index).map (fun r => index - r)

/-! ## The Elias-Fano sequence (`cseq/src/elias_fano.rs`) -/

/-- `elias_fano::Builder` state.  The source field `universe` is a Lean
keyword, hence `universe_size`. -/
structure Builder where
  hi : List Nat
  lo : List Nat
  bits_per_lo : Nat
  current_len : Nat
  target_len : Nat
  last_added : Nat
  universe_size : Nat

/-- Fueled floor-log₂: `ilog2F fuel n` halves `n` until it drops below 2.
Structural in the fuel so that the kernel can evaluate it. -/
def ilog2F : Nat → Nat → Nat
  | 0, _ => 0
  | fuel + 1, n => if 2 ≤ n then ilog2F fuel (n / 2) + 1 else 0

/-- `u64::checked_ilog2().unwrap_or(0)` of the source: floor log₂, and 0 at 0.
Fuel 64 suffices for every `u64` value. -/
def ilog2u64 (n : Nat) : Nat := ilog2F 64 n

/-- `Builder::new` (`elias_fano.rs` lines 37-52). -/
def Builder.new (final_len : Nat) (universe_size : Nat) : Builder :=
  if final_len = 0 ∨ universe_size = 0 then
    ⟨[], [], 0, 0, 0, 0, universe_size⟩
  else
    ⟨with_zeroed_bits (final_len
        + ((universe_size - 1) >>> ilog2u64 (universe_size / final_len))),
      with_zeroed_bits (Nat.max 1 (final_len * ilog2u64 (universe_size / final_len))),
      ilog2u64 (universe_size / final_len), 0, final_len, 0, universe_size⟩

/-- `Builder::push_unchecked` (lines 55-59). -/
def Builder.push_unchecked (b : Builder) (value : Nat) : Builder :=
  { b with
    hi := set_bit b.hi ((value >>> b.bits_per_lo) + b.current_len),
    lo := (init_successive_fragment b.lo b.current_len
      (value &&& n_lowest_bits b.bits_per_lo) b.bits_per_lo).1,
    current_len := (init_successive_fragment b.lo b.current_len
      (value &&& n_lowest_bits b.bits_per_lo) b.bits_per_lo).2,
    last_added := value }

/-- `Builder::push` (lines 69-74): the three asserts, in order; `none` models
the panic. -/
def Builder.push (b : Builder) (value : Nat) : Option Builder :=
  if value < b.universe_size ∧ b.current_len < b.target_len ∧ b.last_added ≤ value then
    some (b.push_unchecked value)
  else none

/-- `Builder::push_all` (lines 83-85). -/
def Builder.push_all (b : Builder) (values : List Nat) : Option Builder :=
  values.foldlM (fun b v => b.push v) b

/-- `elias_fano::Sequence` (default select policy `CombinedSampling`). -/
structure Sequence where
  hi : ArrayWithRankSelect101111
  lo : List Nat
  bits_per_lo : Nat
  len : Nat

/-- `Builder::finish_unchecked` (lines 94-101): builds the rank/select
structure over the `hi` buffer. -/
def Builder.finish_unchecked (b : Builder) : Sequence :=
  ⟨ArrayWithRankSelect101111.ofContent b.hi, b.lo, b.bits_per_lo, b.current_len⟩

/-- `Builder::finish` (lines 105-108): `none` models the panic when not all
declared items were pushed. -/
def Builder.finish (b : Builder) : Option Sequence :=
  if b.current_len = b.target_len then some b.finish_unchecked else none

/-- Building a sequence from scratch: `Builder::new`, `push_all`, `finish`. -/
def ef_build (final_len universe_size : Nat) (values : List Nat) : Option Sequence :=
  ((Builder.new final_len universe_size).push_all values).bind Builder.finish

/-- Position in the sequence (`elias_fano.rs` `Position`). -/
structure Position where
  hi : Nat
  lo : Nat
deriving DecidableEq

/-- `Sequence::value_at_position_unchecked` (lines 163-165); `Position::hi_bits`
is `hi - lo`. -/
def Sequence.value_at_position_unchecked (s : Sequence) (p : Position) : Nat :=
  ((p.hi - p.lo) <<< s.bits_per_lo) ||| get_fragment s.lo p.lo s.bits_per_lo

/-- `Sequence::value_at_position` (line 182). -/
def Sequence.value_at_position (s : Sequence) (p : Position) : Option Nat :=
  if p.lo < s.len then some (s.value_at_position_unchecked p) else none

/-- `Sequence::advance_position_unchecked` (lines 137-144). -/
def Sequence.advance_position_unchecked (s : Sequence) (p : Position) : Position :=
  ⟨if p.lo + 1 ≠ s.len then find_bit_one_unchecked s.hi.content (p.hi + 1)
    else s.len * 64, p.lo + 1⟩

/-- `Sequence::advance_position_back_unchecked` (lines 146-149). -/
def Sequence.advance_position_back_unchecked (s : Sequence) (p : Position) : Position :=
  ⟨rfind_bit_one_unchecked s.hi.content (p.hi - 1), p.lo - 1⟩

/-- `Sequence::begin_position` (line 186). -/
def Sequence.begin_position (s : Sequence) : Position :=
  ⟨trailing_zero_bits s.hi.content, 0⟩

/-- `Sequence::end_position` (line 190). -/
def Sequence.end_position (s : Sequence) : Position :=
  ⟨s.hi.content.length * 64, s.len⟩

/-- `self.hi.select_unchecked(index)` with the sequence's `CombinedSampling`
policy; the out-of-bounds (undefined) case defaults past the end. -/
def Sequence.select_hi_unchecked (s : Sequence) (index : Nat) : Nat :=
  (combined_sampling_select s.hi.content index).getD (64 * s.hi.content.length)

/-- `Sequence::get_unchecked` (lines 213-216). -/
def Sequence.get_unchecked (s : Sequence) (index : Nat) : Nat :=
  ((s.select_hi_unchecked index - index) <<< s.bits_per_lo)
    ||| get_fragment s.lo index s.bits_per_lo

/-- `Sequence::get` (lines 219-221). -/
def Sequence.get (s : Sequence) (index : Nat) : Option Nat :=
  if index < s.len then some (s.get_unchecked index) else none

/-- The walk-back loop of `geq_position_uncorrected` (lines 292-297).  The fuel
is the initial `lo_index`: the loop decrements `lo_index` every iteration and
stops at zero, which is also why the Rust loop terminates. -/
def Sequence.geq_walk (s : Sequence) (value_lo : Nat) : Nat → Nat → Nat → Position
  | 0, hi_index, lo_index => ⟨hi_index, lo_index⟩
  | fuel + 1, hi_index, lo_index =>
    if 0 < lo_index ∧ get_bit s.hi.content (hi_index - 1)
        ∧ value_lo ≤ get_fragment s.lo (lo_index - 1) s.bits_per_lo then
      s.geq_walk value_lo fuel (hi_index - 1) (lo_index - 1)
    else ⟨hi_index, lo_index⟩

/-- `Sequence::geq_position_uncorrected` (lines 284-299).  `hi_index - value_hi`
is `usize` subtraction (panics on underflow in debug; `Nat` truncation here —
the verified facts do not depend on the underflow case). -/
def Sequence.geq_position_uncorrected (s : Sequence) (value : Nat) : Position :=
  let value_hi := value >>> s.bits_per_lo
  let hi_index := (s.hi.try_select0_cs value_hi).getD (s.len * 64)
  let lo_index := hi_index - value_hi
  s.geq_walk (value &&& n_lowest_bits s.bits_per_lo) lo_index hi_index lo_index

/-- `Sequence::geq_position` (lines 302-306). -/
def Sequence.geq_position (s : Sequence) (value : Nat) : Position :=
  ⟨(find_bit_one s.hi.content (s.geq_position_uncorrected value).hi).getD (s.len * 64),
    (s.geq_position_uncorrected value).lo⟩

/-- `Sequence::position_of` (lines 308-311). -/
def Sequence.position_of (s : Sequence) (value : Nat) : Option Position :=
  (s.value_at_position (s.geq_position value)).bind
    (fun geq_value => if geq_value = value then some (s.geq_position value) else none)

/-- `Sequence::geq_index` (lines 319-321). -/
def Sequence.geq_index (s : Sequence) (value : Nat) : Nat :=
  (s.geq_position_uncorrected value).lo

/-- `Sequence::index_of` (lines 329-331). -/
def Sequence.index_of (s : Sequence) (value : Nat) : Option Nat :=
  (s.position_of value).map (fun p => p.lo)

/-- `impl Rank for Sequence`: `try_rank` (lines 342-344). -/
def Sequence.try_rank (s : Sequence) (value : Nat) : Option Nat :=
  some (s.geq_index value)

/-- `Cursor::is_end` (line 427).  Faithful to the source, whose body is
`self.position.lo != self.sequence.len` — identical to `is_valid`. -/
def Sequence.is_end (s : Sequence) (p : Position) : Bool :=
  p.lo != s.len

/-- `Cursor::is_valid` (line 430); body identical to `is_end` in the source. -/
def Sequence.is_valid (s : Sequence) (p : Position) : Bool :=
  p.lo != s.len

/-- `Cursor::advance` (lines 446-450): returns whether it advanced, and the
new position. -/
def Sequence.advance (s : Sequence) (p : Position) : Bool × Position :=
  if s.is_end p then (false, p)
  else (true, s.advance_position_unchecked p)

/-! ## The wavelet matrix (`cseq/src/wm.rs`) -/

/-- `wm::LevelBuilder` (`wm.rs` lines 14-22). -/
structure LevelBuilder where
  upper_bit : List Nat
  upper_index : Nat
  lower_bits : List Nat
  lower_zero_index : Nat
  lower_one_index : Nat
  upper_bit_mask : Nat
  bits_per_value : Nat

/-- `LevelBuilder::new` (lines 27-37). -/
def LevelBuilder.new (number_of_zeros total_len : Nat) (index_of_bit_to_extract : Nat) :
    LevelBuilder :=
  ⟨with_zeroed_bits total_len, 0,
    with_zeroed_bits (total_len * index_of_bit_to_extract), 0,
    number_of_zeros * index_of_bit_to_extract,
    1 <<< index_of_bit_to_extract,
    index_of_bit_to_extract⟩

/-- `LevelBuilder::push` (lines 40-47). -/
def LevelBuilder.push (lb : LevelBuilder) (value : Nat) : LevelBuilder :=
  if value &&& lb.upper_bit_mask ≠ 0 then
    { lb with
      upper_bit := (init_successive_bit lb.upper_bit lb.upper_index true).1,
      upper_index := (init_successive_bit lb.upper_bit lb.upper_index true).2,
      lower_bits := (init_successive_bits lb.lower_bits lb.lower_one_index
        (value &&& (lb.upper_bit_mask - 1)) lb.bits_per_value).1,
      lower_one_index := (init_successive_bits lb.lower_bits lb.lower_one_index
        (value &&& (lb.upper_bit_mask - 1)) lb.bits_per_value).2 }
  else
    { lb with
      upper_bit := (init_successive_bit lb.upper_bit lb.upper_index false).1,
      upper_index := (init_successive_bit lb.upper_bit lb.upper_index false).2,
      lower_bits := (init_successive_bits lb.lower_bits lb.lower_zero_index
        (value &&& (lb.upper_bit_mask - 1)) lb.bits_per_value).1,
      lower_zero_index := (init_successive_bits lb.lower_bits lb.lower_zero_index
        (value &&& (lb.upper_bit_mask - 1)) lb.bits_per_value).2 }

/-- `wm::WaveletMatrixLevel` (lines 50-56): content with rank/select support
(`CombinedSampling` select policies) and the recorded zero count. -/
structure WaveletMatrixLevel where
  content : ArrayWithRankSelect101111
  number_of_zeros : Nat

/-- `wm::WaveletMatrix` (lines 83-86). -/
structure WaveletMatrix where
  levels : List WaveletMatrixLevel
  len : Nat

/-- The zero-count precomputation of `from_fn` (lines 112-119): the number of
input values whose bit `b` is zero.  (`e = !e; … (e >> b) & 1` accumulates
`!e.testBit b` for each `b < bits_per_value`; only indices `< bits_per_value`
are ever read.) -/
def wm_number_of_zeros (T : List Nat) (b : Nat) : Nat :=
  T.countP (fun e => !e.testBit b)

/-- The while-loop of `from_fn` (lines 130-140) plus the final push of `rest`
(line 141), recursing on `current_bit`.  The source loop
`for index in (0..content_len*rest_bits).step_by(rest_bits)` visits
`index = j * rest_bits` for `j < content_len`. -/
def wm_build_rest (T : List Nat) (content_len : Nat) :
    Nat → List Nat → List WaveletMatrixLevel
  | 0, rest =>
    [⟨ArrayWithRankSelect101111.ofContent rest, wm_number_of_zeros T 0⟩]
  | 1, rest =>
    [⟨ArrayWithRankSelect101111.ofContent rest, wm_number_of_zeros T 0⟩]
  | cb + 2, rest =>
    let lb := (List.range content_len).foldl
      (fun l j => l.push (get_bits rest (j * (cb + 2)) (cb + 2)))
      (LevelBuilder.new (wm_number_of_zeros T (cb + 1)) content_len (cb + 1))
    ⟨ArrayWithRankSelect101111.ofContent lb.upper_bit, wm_number_of_zeros T (cb + 1)⟩
      :: wm_build_rest T content_len (cb + 1) lb.lower_bits

/-- `WaveletMatrix::from_fn` (lines 99-143) over a concrete list of symbols
(the source's re-iterable callable); `none` models the `assert!` panic on an
unsupported width. -/
def wm_from_fn (T : List Nat) (content_len : Nat) (bits_per_value : Nat) :
    Option WaveletMatrix :=
  if ¬(0 < bits_per_value ∧ bits_per_value ≤ 64) then none
  else if bits_per_value = 1 then
    some ⟨[⟨ArrayWithRankSelect101111.ofContent
        (T.enum.foldl (fun level ie => init_bit level ie.1 (ie.2 != 0))
          (with_zeroed_bits content_len)),
      content_len⟩], content_len⟩
  else
    some ⟨⟨ArrayWithRankSelect101111.ofContent
        (T.foldl LevelBuilder.push
          (LevelBuilder.new (wm_number_of_zeros T (bits_per_value - 1)) content_len
            (bits_per_value - 1))).upper_bit,
        wm_number_of_zeros T (bits_per_value - 1)⟩
      :: wm_build_rest T content_len (bits_per_value - 1)
        (T.foldl LevelBuilder.push
          (LevelBuilder.new (wm_number_of_zeros T (bits_per_value - 1)) content_len
            (bits_per_value - 1))).lower_bits,
      content_len⟩

/-- `WaveletMatrix::from_bits` (lines 145-149). -/
def wm_from_bits (content : List Nat) (content_len : Nat) (bits_per_value : Nat) :
    Option WaveletMatrix :=
  wm_from_fn ((List.range content_len).map (fun index => get_fragment content index bits_per_value))
    content_len bits_per_value

/-- `WaveletMatrix::get` (lines 151-164).  The loop body uses the panicking
`rank`/`rank0`; `none` covers both the explicit out-of-bound `None` and a
panic (the correctness proof shows no panic can occur). -/
def wm_get (wm : WaveletMatrix) (index : Nat) : Option Nat :=
  if wm.len ≤ index then none
  else
    (wm.levels.foldlM (fun (acc : Nat × Nat) (level : WaveletMatrixLevel) =>
        if get_bit level.content.content acc.2 then
          (level.content.rank acc.2).map (fun r =>
            ((acc.1 <<< 1) ||| 1, r + level.number_of_zeros))
        else
          (level.content.rank0 acc.2).map (fun r => (acc.1 <<< 1, r))
      ) (0, index)).map Prod.fst

/-- `WaveletMatrix::try_count_in_range` (lines 170-184).  Nested options: the
outer `none` models a panic (an out-of-bounds word access inside the panicking
`rank`, or the `1usize << 64` shift overflow when `bits_per_value = 64`);
`some none` is the returned `None`; `some (some c)` the returned count.
`range.len()` is `end - start` (0 when empty). -/
def wm_try_count_in_range (wm : WaveletMatrix) (start stop : Nat) (value : Nat) :
    Option (Option Nat) :=
  if wm.len < stop then some none
  else if 64 ≤ wm.levels.length then none
  else
    ((wm.levels.foldlM (fun (acc : Nat × Nat × Nat) (level : WaveletMatrixLevel) =>
        if value &&& (acc.1 >>> 1) = 0 then
          (level.content.rank0 acc.2.1).bind (fun s =>
            (level.content.rank0 acc.2.2).map (fun e => (acc.1 >>> 1, s, e)))
        else
          (level.content.rank acc.2.1).bind (fun s =>
            (level.content.rank acc.2.2).map (fun e =>
              (acc.1 >>> 1, s + level.number_of_zeros, e + level.number_of_zeros)))
      ) (1 <<< wm.levels.length, start, stop) : Option (Nat × Nat × Nat)).map
      (fun acc => some (acc.2.2 - acc.2.1)))

/-- `WaveletMatrix::try_rank` (lines 186-188). -/
def wm_try_rank (wm : WaveletMatrix) (index : Nat) (value : Nat) : Option (Option Nat) :=
  wm_try_count_in_range wm 0 index value

/-- One stable-partition step of the wavelet-matrix construction, as a pure
list operation: the values whose bit `cb` is clear (in input order), then
those whose bit `cb` is set, each truncated to its `cb` low bits.  Level
`cb` of the matrix sends the value at position `i` to position
`rank0(i)` (bit clear) or `number_of_zeros + rank1(i)` (bit set) of this
list. -/
def wm_step (cb : Nat) (vs : List Nat) : List Nat :=
  (vs.filter (fun v => !v.testBit cb) ++ vs.filter (fun v => v.testBit cb)).map
    (fun v => v % 2 ^ cb)

/-- The level list `ls` faithfully represents the value list `vs`: the head
level's bit array holds bit `ls.length` of each value (and zeros beyond), its
rank directory is the one built over its own payload, its recorded zero count
is the true zero count of that bit (only needed when further levels follow:
the last level's count never influences `get`), and the tail levels represent
the stable partition of `vs`. -/
def levels_realize : List WaveletMatrixLevel → List Nat → Prop
  | [], vs => ∀ v ∈ vs, v = 0
  | l :: ls, vs =>
    (∀ j, j < vs.length → get_bit l.content.content j = (vs.getD j 0).testBit ls.length)
    ∧ (∀ j, vs.length ≤ j → get_bit l.content.content j = false)
    ∧ l.content = ArrayWithRankSelect101111.ofContent l.content.content
    ∧ (ls ≠ [] → l.number_of_zeros = vs.countP (fun v => !v.testBit ls.length))
    ∧ (∀ v ∈ vs, v < 2 ^ (ls.length + 1))
    ∧ vs.length ≤ 64 * l.content.content.length
    ∧ levels_realize ls (wm_step ls.length vs)

/-- Invariant of the `LevelBuilder` fold after the first `t` values of `vs`
have been pushed (`w` is `bits_per_value = index_of_bit_to_extract`): cursor
positions, already-written upper bits and lower fragments, and the regions
that are still all-zero. -/
def lb_ok (w : Nat) (vs : List Nat) (t : Nat) (lb : LevelBuilder) : Prop :=
  lb.bits_per_value = w
  ∧ lb.upper_bit_mask = 2 ^ w
  ∧ lb.upper_index = t
  ∧ lb.upper_bit.length = (vs.length + 63) / 64
  ∧ lb.lower_bits.length = (vs.length * w + 63) / 64
  ∧ lb.lower_zero_index = w * ((vs.take t).countP (fun v => !v.testBit w))
  ∧ lb.lower_one_index
      = w * (vs.countP (fun v => !v.testBit w) + (vs.take t).countP (fun v => v.testBit w))
  ∧ (∀ j, j < t → get_bit lb.upper_bit j = (vs.getD j 0).testBit w)
  ∧ (∀ j, t ≤ j → get_bit lb.upper_bit j = false)
  ∧ (∀ j, j < (vs.take t).countP (fun v => !v.testBit w) →
      get_bits lb.lower_bits (j * w) w
        = ((vs.take t).filter (fun v => !v.testBit w)).getD j 0 % 2 ^ w)
  ∧ (∀ j, j < (vs.take t).countP (fun v => v.testBit w) →
      get_bits lb.lower_bits ((vs.countP (fun v => !v.testBit w) + j) * w) w
        = ((vs.take t).filter (fun v => v.testBit w)).getD j 0 % 2 ^ w)
  ∧ (∀ p, (w * ((vs.take t).countP (fun v => !v.testBit w)) ≤ p
        ∧ p < w * vs.countP (fun v => !v.testBit w))
      ∨ w * (vs.countP (fun v => !v.testBit w)
          + (vs.take t).countP (fun v => v.testBit w)) ≤ p →
      get_bit lb.lower_bits p = false)

theorem chunksF_fuel {n : Nat} (xs : List α) (fuel fuel' : Nat)
    (h : xs.length ≤ fuel) (h' : xs.length ≤ fuel') (hn : 0 < n) :
    chunksF n fuel xs = chunksF n fuel' xs := by
  induction fuel using Nat.strong_induction_on generalizing xs fuel' with
  | _ fuel ih =>
    match xs, fuel, fuel' with
    | [], fuel, fuel' =>
      cases fuel <;> cases fuel' <;> rfl
    | x :: xs, fuel + 1, fuel' + 1 =>
      simp only [chunksF]
      by_cases hlen : n < (x :: xs).length
      · simp only [if_pos hlen]
        have hdrop : ((x :: xs).drop n).length ≤ fuel := by
          simp only [List.length_drop]
          omega
        have hdrop' : ((x :: xs).drop n).length ≤ fuel' := by
          simp only [List.length_drop]
          omega
        rw [ih fuel (Nat.lt_succ_self fuel) _ fuel' hdrop hdrop']
      · simp only [if_neg hlen]

theorem chunks_nil {n : Nat} : chunks n ([] : List α) = [] := rfl

theorem chunks_cons {n : Nat} (hn : 0 < n) (x : α) (xs : List α) :
    chunks n (x :: xs) = (x :: xs).take n :: chunks n ((x :: xs).drop n) := by
  unfold chunks
  have hlen : (x :: xs).length = xs.length + 1 := by simp
  by_cases h : n < (x :: xs).length
  · conv_lhs => rw [hlen]
    simp only [chunksF, if_pos h]
    congr 1
    exact chunksF_fuel _ _ _ (by simp; omega) (le_refl _) hn
  · conv_lhs => rw [hlen]
    simp only [chunksF, if_neg h]
    have htake : (x :: xs).take n = x :: xs := List.take_of_length_le (by omega)
    have hdrop : (x :: xs).drop n = [] := List.drop_eq_nil_of_le (by omega)
    rw [htake, hdrop]
    rfl

/-! ## Basic facts about the bit primitives and chunking -/

theorem or_shl_eq (a b k : Nat) (ha : a < 2 ^ k) : a ||| (b <<< k) = 2 ^ k * b + a := by
  apply Nat.eq_of_testBit_eq
  intro j
  rw [Nat.testBit_lor, Nat.shiftLeft_eq, mul_comm b, Nat.testBit_mul_pow_two,
    Nat.testBit_mul_pow_two_add _ ha]
  by_cases hj : j < k
  · simp [hj, Nat.not_le_of_lt hj]
  · have hb : a.testBit j = false :=
      Nat.testBit_eq_false_of_lt
        (lt_of_lt_of_le ha (Nat.pow_le_pow_right (by norm_num) (Nat.le_of_not_lt hj)))
    simp [hj, hb, Nat.le_of_not_lt hj]

theorem chunks_flatten_aux {n : Nat} (hn : 0 < n) :
    ∀ (L : Nat) (xs : List α), xs.length ≤ L → (chunks n xs).flatten = xs := by
  intro L
  induction L with
  | zero =>
    intro xs h
    have hx : xs = [] := List.eq_nil_of_length_eq_zero (by omega)
    subst hx; rfl
  | succ L ih =>
    intro xs h
    match xs with
    | [] => rfl
    | x :: xs =>
      rw [chunks_cons hn, List.flatten_cons, ih _ (by simp at h ⊢; omega),
        List.take_append_drop]

theorem chunks_flatten {n : Nat} (hn : 0 < n) (xs : List α) :
    (chunks n xs).flatten = xs :=
  chunks_flatten_aux hn xs.length xs le_rfl

theorem chunks_mem_length_aux {n : Nat} (hn : 0 < n) :
    ∀ (L : Nat) (xs c : List α), xs.length ≤ L → c ∈ chunks n xs → c.length ≤ n := by
  intro L
  induction L with
  | zero =>
    intro xs c h hc
    have hx : xs = [] := List.eq_nil_of_length_eq_zero (by omega)
    subst hx; simp [chunks_nil] at hc
  | succ L ih =>
    intro xs c h hc
    match xs with
    | [] => simp [chunks_nil] at hc
    | x :: xs =>
      rw [chunks_cons hn] at hc
      rcases List.mem_cons.mp hc with h' | h'
      · subst h'; simp
      · exact ih _ _ (by simp at h ⊢; omega) h'

theorem chunks_mem_length {n : Nat} (hn : 0 < n) (xs c : List α)
    (hc : c ∈ chunks n xs) : c.length ≤ n :=
  chunks_mem_length_aux hn xs.length xs c le_rfl hc

theorem chunks_length_bounds_aux {n : Nat} (hn : 0 < n) :
    ∀ (L : Nat) (xs : List α), xs.length ≤ L →
      xs.length ≤ n * (chunks n xs).length ∧ n * (chunks n xs).length < xs.length + n := by
  intro L
  induction L with
  | zero =>
    intro xs h
    have hx : xs = [] := List.eq_nil_of_length_eq_zero (by omega)
    subst hx; simpa [chunks_nil] using hn
  | succ L ih =>
    intro xs h
    match xs with
    | [] => simpa [chunks_nil] using hn
    | x :: xs =>
      rw [chunks_cons hn]
      by_cases hcase : (x :: xs).length ≤ n
      · rw [List.drop_eq_nil_of_le hcase, chunks_nil]
        have h1 : (List.take n (x :: xs) :: ([] : List (List α))).length = 1 := rfl
        rw [h1, Nat.mul_one]
        simp only [List.length_cons] at hcase ⊢
        omega
      · have hrec := ih ((x :: xs).drop n) (by simp at h ⊢; omega)
        simp only [List.length_drop] at hrec
        simp only [List.length_cons] at hcase ⊢
        rw [Nat.mul_add, Nat.mul_one]
        generalize hq : n * (chunks n ((x :: xs).drop n)).length = q at hrec ⊢
        simp only [List.length_cons] at hrec
        omega

theorem chunks_length_bounds {n : Nat} (hn : 0 < n) (xs : List α) :
    xs.length ≤ n * (chunks n xs).length ∧ n * (chunks n xs).length < xs.length + n :=
  chunks_length_bounds_aux hn xs.length xs le_rfl

theorem lt_chunks_length_iff {n : Nat} (hn : 0 < n) (xs : List α) (k : Nat) :
    k < (chunks n xs).length ↔ n * k < xs.length := by
  obtain ⟨h1, h2⟩ := chunks_length_bounds hn xs
  constructor
  · intro hk
    have hm : n * k + n ≤ n * (chunks n xs).length := by
      rw [← Nat.mul_succ]
      exact Nat.mul_le_mul_left n hk
    omega
  · intro hk
    have hm : n * k < n * (chunks n xs).length := lt_of_lt_of_le hk h1
    exact Nat.lt_of_mul_lt_mul_left hm

theorem chunks_getD_aux {n : Nat} (hn : 0 < n) :
    ∀ (L : Nat) (xs : List α) (k : Nat), xs.length ≤ L → n * k < xs.length →
      (chunks n xs).getD k [] = (xs.drop (n * k)).take n := by
  intro L
  induction L with
  | zero =>
    intro xs k h hk
    omega
  | succ L ih =>
    intro xs k h hk
    match xs with
    | [] => simp at hk
    | x :: xs =>
      rw [chunks_cons hn]
      match k with
      | 0 => simp
      | k + 1 =>
        have hk' : n * k < ((x :: xs).drop n).length := by
          simp only [List.length_drop]
          have hmul : n * (k + 1) = n * k + n := by ring
          omega
        rw [List.getD_cons_succ, ih _ k (by simp at h ⊢; omega) hk', List.drop_drop]
        congr 2
        ring

theorem chunks_getD {n : Nat} (hn : 0 < n) (xs : List α) (k : Nat)
    (hk : n * k < xs.length) :
    (chunks n xs).getD k [] = (xs.drop (n * k)).take n :=
  chunks_getD_aux hn xs.length xs k le_rfl hk

theorem chunks_take_flatten_aux {n : Nat} (hn : 0 < n) :
    ∀ (L : Nat) (xs : List α) (k : Nat), xs.length ≤ L →
      ((chunks n xs).take k).flatten = xs.take (n * k) := by
  intro L
  induction L with
  | zero =>
    intro xs k h
    have hx : xs = [] := List.eq_nil_of_length_eq_zero (by omega)
    subst hx; simp [chunks_nil]
  | succ L ih =>
    intro xs k h
    match xs with
    | [] => simp [chunks_nil]
    | x :: xs =>
      rw [chunks_cons hn]
      match k with
      | 0 => simp
      | k + 1 =>
        rw [List.take_succ_cons, List.flatten_cons, ih _ k (by simp at h ⊢; omega)]
        have hmul : n * (k + 1) = n + n * k := by ring
        rw [hmul, List.take_add]

theorem chunks_take_flatten {n : Nat} (hn : 0 < n) (xs : List α) (k : Nat) :
    ((chunks n xs).take k).flatten = xs.take (n * k) :=
  chunks_take_flatten_aux hn xs.length xs k le_rfl

/-! ## Counting lemmas -/

theorem popcount64_le (w : Nat) : popcount64 w ≤ 64 := by
  have h := List.countP_le_length (fun i => w.testBit i) (l := List.range 64)
  simpa [popcount64] using h

theorem popcount64_zero : popcount64 0 = 0 := by
  simp [popcount64]

theorem count_bits_in_append (xs ys : List Nat) :
    count_bits_in (xs ++ ys) = count_bits_in xs + count_bits_in ys := by
  simp [count_bits_in]

theorem count_bits_in_le (ws : List Nat) : count_bits_in ws ≤ 64 * ws.length := by
  induction ws with
  | nil => simp [count_bits_in]
  | cons w ws ih =>
    have h := popcount64_le w
    simp only [count_bits_in, List.map_cons, List.sum_cons, List.length_cons] at ih ⊢
    omega

theorem count_bits_in_flatten (css : List (List Nat)) :
    count_bits_in css.flatten = (css.map count_bits_in).sum := by
  induction css with
  | nil => rfl
  | cons c cs ih => simp [List.flatten_cons, count_bits_in_append, ih]

theorem count_take_split (ws : List Nat) (x y : Nat) (h : x ≤ y) :
    count_bits_in (ws.take y)
      = count_bits_in (ws.take x) + count_bits_in ((ws.drop x).take (y - x)) := by
  conv_lhs => rw [show y = x + (y - x) by omega]
  rw [List.take_add, count_bits_in_append]

theorem count_take_one (ws : List Nat) (j : Nat) :
    count_bits_in ((ws.drop j).take 1) = popcount64 (ws.getD j 0) := by
  by_cases hj : j < ws.length
  · rw [List.drop_eq_getElem_cons hj]
    have h1 : (ws[j] :: ws.drop (j + 1)).take 1 = [ws[j]] := rfl
    rw [h1]
    have h2 : ws.getD j 0 = ws[j] := by
      rw [List.getD_eq_getElem?_getD, List.getElem?_eq_getElem hj]
      rfl
    rw [h2]
    simp [count_bits_in]
  · rw [List.drop_eq_nil_of_le (by omega), List.getD_eq_default _ _ (by omega)]
    simp [count_bits_in, popcount64_zero]

/-! ## Decomposing naive rank -/

theorem popcount64_and_mask (w m : Nat) (hm : m ≤ 64) :
    popcount64 (w &&& n_lowest_bits m) = (List.range m).countP (fun i => w.testBit i) := by
  unfold popcount64 n_lowest_bits
  have h1 : ∀ i : Nat, (w &&& (2 ^ m - 1)).testBit i = (w.testBit i && decide (i < m)) := by
    intro i
    rw [Nat.testBit_and, Nat.testBit_two_pow_sub_one]
  have h2 : (List.range 64).countP (fun i => (w &&& (2 ^ m - 1)).testBit i)
      = (List.range 64).countP (fun i => w.testBit i && decide (i < m)) := by
    apply List.countP_congr
    intro x _
    rw [h1]
  rw [h2]
  have h64 : (64 : Nat) = m + (64 - m) := by omega
  rw [h64, List.range_add, List.countP_append]
  have h3 : (List.range m).countP (fun i => w.testBit i && decide (i < m))
      = (List.range m).countP (fun i => w.testBit i) := by
    apply List.countP_congr
    intro x hx
    have hxm : x < m := List.mem_range.mp hx
    simp [hxm]
  have h4 : ((List.range (64 - m)).map (fun x => m + x)).countP
      (fun i => w.testBit i && decide (i < m)) = 0 := by
    apply List.countP_eq_zero.mpr
    intro a ha
    obtain ⟨x, _, hxa⟩ := List.mem_map.mp ha
    subst hxa
    simp
  rw [h3, h4]
  omega

theorem rank_split (ws : List Nat) (i : Nat) :
    rank_naive ws i = count_bits_in (ws.take (i / 64))
      + (List.range (i % 64)).countP (fun k => (ws.getD (i / 64) 0).testBit k) := by
  induction i with
  | zero => simp [rank_naive, count_bits_in]
  | succ i ih =>
    have hstep : rank_naive ws (i + 1)
        = rank_naive ws i + (if get_bit ws i then 1 else 0) := by
      unfold rank_naive
      rw [List.range_succ, List.countP_append]
      simp [List.countP_cons]
    rw [hstep, ih]
    by_cases h63 : i % 64 = 63
    · have hd1 : (i + 1) / 64 = i / 64 + 1 := by omega
      have hm1 : (i + 1) % 64 = 0 := by omega
      rw [hd1, hm1]
      have hsplit : count_bits_in (ws.take (i / 64 + 1))
          = count_bits_in (ws.take (i / 64)) + popcount64 (ws.getD (i / 64) 0) := by
        rw [count_take_split ws (i / 64) (i / 64 + 1) (by omega)]
        simp [count_take_one]
      rw [hsplit]
      have hpop : popcount64 (ws.getD (i / 64) 0)
          = (List.range 63).countP (fun k => (ws.getD (i / 64) 0).testBit k)
            + (if (ws.getD (i / 64) 0).testBit 63 then 1 else 0) := by
        unfold popcount64
        have h64 : (64 : Nat) = 63 + 1 := rfl
        rw [h64, List.range_succ, List.countP_append]
        simp [List.countP_cons]
      have hbit : get_bit ws i = (ws.getD (i / 64) 0).testBit 63 := by
        unfold get_bit
        rw [h63]
      rw [hpop, hbit, h63]
      simp
      omega
    · have hd1 : (i + 1) / 64 = i / 64 := by omega
      have hm1 : (i + 1) % 64 = i % 64 + 1 := by omega
      rw [hd1, hm1, List.range_succ, List.countP_append]
      have hbit : get_bit ws i = (ws.getD (i / 64) 0).testBit (i % 64) := rfl
      rw [hbit]
      simp [List.countP_cons]
      omega

theorem rank_words (ws : List Nat) (k : Nat) :
    rank_naive ws (64 * k) = count_bits_in (ws.take k) := by
  rw [rank_split]
  have h1 : 64 * k / 64 = k := by omega
  have h2 : 64 * k % 64 = 0 := by omega
  rw [h1, h2]
  simp

theorem rank_naive_all (ws : List Nat) :
    rank_naive ws (64 * ws.length) = count_bits_in ws := by
  rw [rank_words, List.take_of_length_le le_rfl]

/-! ## Field extraction from a packed L2 entry -/

theorem lor_right_comm (a b c : Nat) : a ||| b ||| c = a ||| c ||| b := by
  rw [Nat.lor_assoc, Nat.lor_comm b c, ← Nat.lor_assoc]

theorem l2_fields_core (r A B C : Nat) (hr : r < 2 ^ 32) (hA : A < 2 ^ 11)
    (hB : B < 2 ^ 11) (hC : C < 2 ^ 10) :
    (2 ^ 54 * C + 2 ^ 43 * B + 2 ^ 32 * A + r) &&& 4294967295 = r
    ∧ (((2 ^ 54 * C + 2 ^ 43 * B + 2 ^ 32 * A + r) >>> 32) >>> 33) &&& 2047 = 0
    ∧ (((2 ^ 54 * C + 2 ^ 43 * B + 2 ^ 32 * A + r) >>> 32) >>> 22) &&& 2047 = C
    ∧ (((2 ^ 54 * C + 2 ^ 43 * B + 2 ^ 32 * A + r) >>> 32) >>> 11) &&& 2047 = B
    ∧ (((2 ^ 54 * C + 2 ^ 43 * B + 2 ^ 32 * A + r) >>> 32) >>> 0) &&& 2047 = A := by
  have e1 : (4294967295 : Nat) = 2 ^ 32 - 1 := by norm_num
  have e2 : (2047 : Nat) = 2 ^ 11 - 1 := by norm_num
  rw [e1, e2]
  simp only [Nat.and_pow_two_sub_one_eq_mod, Nat.shiftRight_eq_div_pow]
  norm_num
  omega

theorem pack4_eq (r v0 s2 s3 : Nat) (hr : r < 2 ^ 32) (h0 : v0 < 2 ^ 10)
    (h2 : s2 < 2 ^ 11) (h3 : s3 < 2 ^ 11) :
    r ||| (v0 <<< 54) ||| (s2 <<< 43) ||| (s3 <<< 32)
      = 2 ^ 54 * v0 + 2 ^ 43 * s2 + 2 ^ 32 * s3 + r := by
  rw [lor_right_comm (r ||| v0 <<< 54) (s2 <<< 43) (s3 <<< 32),
    lor_right_comm r (v0 <<< 54) (s3 <<< 32),
    lor_right_comm (r ||| s3 <<< 32) (v0 <<< 54) (s2 <<< 43)]
  have hA : r ||| (s3 <<< 32) = 2 ^ 32 * s3 + r := or_shl_eq r s3 32 hr
  have hAb : 2 ^ 32 * s3 + r < 2 ^ 43 := by
    have := Nat.mul_le_mul_left (2 ^ 32) (show s3 ≤ 2047 by omega)
    norm_num at this ⊢
    omega
  have hBb : 2 ^ 43 * s2 + (2 ^ 32 * s3 + r) < 2 ^ 54 := by
    have := Nat.mul_le_mul_left (2 ^ 43) (show s2 ≤ 2047 by omega)
    norm_num at this hAb ⊢
    omega
  rw [hA, or_shl_eq _ s2 43 hAb, or_shl_eq _ v0 54 hBb]
  ring

theorem pack1_eq (r v0 : Nat) (hr : r < 2 ^ 32) (h0 : v0 < 2 ^ 10) :
    r ||| (v0 <<< 54) ||| (((1 <<< 22) - 1) <<< 32)
      = 2 ^ 54 * v0 + 2 ^ 43 * 2047 + 2 ^ 32 * 2047 + r := by
  rw [lor_right_comm r (v0 <<< 54) (((1 <<< 22) - 1) <<< 32)]
  have hK : ((1 <<< 22) - 1 : Nat) = 4194303 := by norm_num [Nat.shiftLeft_eq]
  rw [hK, or_shl_eq r 4194303 32 hr]
  have hb : 2 ^ 32 * 4194303 + r < 2 ^ 54 := by norm_num; omega
  rw [or_shl_eq _ v0 54 hb]
  ring_nf

/-- Normal form of every packed L2 entry emitted for a nonempty chunk of at most
32 words: `r` in bits [0..32), 11-bit field `A` at 32, 11-bit field `B` at 43,
10-bit field `C` at 54, where the fields are the sub-block popcount prefix sums
whenever the corresponding sub-block start lies inside the chunk (and all-ones
fill otherwise). -/
theorem l2_entry_fields (r : Nat) (c : List Nat) (hr : r < 2 ^ 32)
    (hc : 0 < c.length) (hc32 : c.length ≤ 32) :
    ∃ A B C, (l2_entry r c).1 = 2 ^ 54 * C + 2 ^ 43 * B + 2 ^ 32 * A + r
      ∧ A < 2 ^ 11 ∧ B < 2 ^ 11 ∧ C < 2 ^ 10
      ∧ (8 < c.length → C = count_bits_in (c.take 8))
      ∧ (16 < c.length → B = count_bits_in (c.take 16))
      ∧ (24 < c.length → A = count_bits_in (c.take 24)) := by
  have hlen8 : ∀ k, k < ((chunks 8 c).map count_bits_in).length ↔ 8 * k < c.length := by
    intro k
    rw [List.length_map]
    exact lt_chunks_length_iff (by norm_num) c k
  have hpref : ∀ k, (((chunks 8 c).map count_bits_in).take k).sum
      = count_bits_in (c.take (8 * k)) := by
    intro k
    rw [← List.map_take, ← count_bits_in_flatten, chunks_take_flatten (by norm_num)]
  have htake_le : ∀ k, count_bits_in (c.take k) ≤ 64 * k := by
    intro k
    calc count_bits_in (c.take k) ≤ 64 * (c.take k).length := count_bits_in_le _
    _ ≤ 64 * k := by
        have := List.length_take_le k c
        omega
  rcases hvals : (chunks 8 c).map count_bits_in with _ | ⟨v0, _ | ⟨v1, _ | ⟨v2, _ | ⟨v3, rest⟩⟩⟩⟩
  · exfalso
    have h0 := (hlen8 0).mpr (by omega)
    rw [hvals] at h0
    simp at h0
  · -- one sub-block: `c.length ≤ 8`
    have hle : c.length ≤ 8 := by
      by_contra hgt
      have h1 := (hlen8 1).mpr (by omega)
      rw [hvals] at h1
      simp at h1
    have hv0 : v0 = count_bits_in (c.take 8) := by
      have := hpref 1
      rw [hvals] at this
      simpa using this
    have hv0b : v0 < 2 ^ 10 := by
      have := htake_le 8
      rw [← hv0] at this
      norm_num
      omega
    refine ⟨2047, 2047, v0, ?_, by norm_num, by norm_num, hv0b, ?_, ?_, ?_⟩
    · simp only [l2_entry, hvals]
      exact pack1_eq r v0 hr hv0b
    · intro h; omega
    · intro h; omega
    · intro h; omega
  · -- two sub-blocks: `8 < c.length ≤ 16`
    have hgt8 : 8 < c.length := by
      have h1 := (hlen8 1).mp (by rw [hvals]; simp)
      omega
    have hle : c.length ≤ 16 := by
      by_contra hgt
      have h2 := (hlen8 2).mpr (by omega)
      rw [hvals] at h2
      simp at h2
    have hv0 : v0 = count_bits_in (c.take 8) := by
      have := hpref 1
      rw [hvals] at this
      simpa using this
    have hv01 : v0 + v1 = count_bits_in (c.take 16) := by
      have := hpref 2
      rw [hvals] at this
      simpa using this
    have hv0b : v0 < 2 ^ 10 := by
      have := htake_le 8
      rw [← hv0] at this
      norm_num
      omega
    have hv01b : v0 + v1 < 2 ^ 11 := by
      have := htake_le 16
      rw [← hv01] at this
      norm_num
      omega
    refine ⟨2047, v0 + v1, v0, ?_, by norm_num, hv01b, hv0b, fun _ => hv0, fun _ => hv01, ?_⟩
    · simp only [l2_entry, hvals]
      have hK : ((1 <<< 11) - 1 : Nat) = 2047 := by norm_num [Nat.shiftLeft_eq]
      rw [hK]
      have h2047 : (2047 : Nat) <<< 32 = (2047 : Nat) <<< 32 := rfl
      exact pack4_eq r v0 (v0 + v1) 2047 hr hv0b hv01b (by norm_num)
    · intro h; omega
  · -- three sub-blocks: `16 < c.length ≤ 24`
    have hgt16 : 16 < c.length := by
      have h2 := (hlen8 2).mp (by rw [hvals]; simp)
      omega
    have hv0 : v0 = count_bits_in (c.take 8) := by
      have := hpref 1
      rw [hvals] at this
      simpa using this
    have hv01 : v0 + v1 = count_bits_in (c.take 16) := by
      have := hpref 2
      rw [hvals] at this
      simpa using this
    have hv012 : v0 + v1 + v2 = count_bits_in (c.take 24) := by
      have := hpref 3
      rw [hvals] at this
      simp at this
      omega
    have hv0b : v0 < 2 ^ 10 := by
      have := htake_le 8
      rw [← hv0] at this
      norm_num
      omega
    have hv01b : v0 + v1 < 2 ^ 11 := by
      have := htake_le 16
      rw [← hv01] at this
      norm_num
      omega
    have hv012b : v0 + v1 + v2 < 2 ^ 11 := by
      have := htake_le 24
      rw [← hv012] at this
      norm_num
      omega
    refine ⟨v0 + v1 + v2, v0 + v1, v0, ?_, hv012b, hv01b, hv0b,
      fun _ => hv0, fun _ => hv01, fun _ => hv012⟩
    simp only [l2_entry, hvals]
    exact pack4_eq r v0 (v0 + v1) (v0 + v1 + v2) hr hv0b hv01b hv012b
  · -- four sub-blocks: `24 < c.length ≤ 32`
    have hgt24 : 24 < c.length := by
      have h3 := (hlen8 3).mp (by rw [hvals]; simp)
      omega
    have hv0 : v0 = count_bits_in (c.take 8) := by
      have := hpref 1
      rw [hvals] at this
      simpa using this
    have hv01 : v0 + v1 = count_bits_in (c.take 16) := by
      have := hpref 2
      rw [hvals] at this
      simpa using this
    have hv012 : v0 + v1 + v2 = count_bits_in (c.take 24) := by
      have := hpref 3
      rw [hvals] at this
      simp at this
      omega
    have hv0b : v0 < 2 ^ 10 := by
      have := htake_le 8
      rw [← hv0] at this
      norm_num
      omega
    have hv01b : v0 + v1 < 2 ^ 11 := by
      have := htake_le 16
      rw [← hv01] at this
      norm_num
      omega
    have hv012b : v0 + v1 + v2 < 2 ^ 11 := by
      have := htake_le 24
      rw [← hv012] at this
      norm_num
      omega
    refine ⟨v0 + v1 + v2, v0 + v1, v0, ?_, hv012b, hv01b, hv0b,
      fun _ => hv0, fun _ => hv01, fun _ => hv012⟩
    simp only [l2_entry, hvals]
    exact pack4_eq r v0 (v0 + v1) (v0 + v1 + v2) hr hv0b hv01b hv012b

theorem l2_entry_low32 (r : Nat) (c : List Nat) (hr : r < 2 ^ 32)
    (hc : 0 < c.length) (hc32 : c.length ≤ 32) :
    (l2_entry r c).1 &&& 4294967295 = r := by
  obtain ⟨A, B, C, heq, hA, hB, hC, -, -, -⟩ := l2_entry_fields r c hr hc hc32
  rw [heq]
  exact (l2_fields_core r A B C hr hA hB hC).1

theorem l2_entry_delta (r : Nat) (c : List Nat) (hr : r < 2 ^ 32)
    (hc32 : c.length ≤ 32) (sub : Nat) (hsub : sub < 4) (hlen : 8 * sub < c.length) :
    (((l2_entry r c).1 >>> 32) >>> (33 - 11 * sub)) &&& 2047
      = count_bits_in (c.take (8 * sub)) := by
  have hc : 0 < c.length := by omega
  obtain ⟨A, B, C, heq, hA, hB, hC, hC8, hB16, hA24⟩ := l2_entry_fields r c hr hc hc32
  obtain ⟨f1, f2, f3, f4, f5⟩ := l2_fields_core r A B C hr hA hB hC
  interval_cases sub
  · rw [heq]
    simpa using f2
  · rw [heq]
    have h8 : (33 - 11 * 1 : Nat) = 22 := by norm_num
    rw [h8, f3, hC8 (by omega)]
  · rw [heq]
    have h16 : (33 - 11 * 2 : Nat) = 11 := by norm_num
    rw [h16, f4, hB16 (by omega)]
  · rw [heq]
    have h24 : (33 - 11 * 3 : Nat) = 0 := by norm_num
    rw [h24, f5, hA24 (by omega)]

/-! ## Characterizing the built directory -/

theorem l2_entry_total (r : Nat) (c : List Nat) (hc : c.length ≤ 32) :
    (l2_entry r c).2 = r + count_bits_in c := by
  have hsum : ((chunks 8 c).map count_bits_in).sum = count_bits_in c := by
    rw [← count_bits_in_flatten, chunks_flatten (by norm_num)]
  have hlen : ((chunks 8 c).map count_bits_in).length ≤ 4 := by
    rw [List.length_map]
    by_contra hgt
    have h4 : 4 < (chunks 8 c).length := by omega
    have := (lt_chunks_length_iff (n := 8) (by norm_num) c 4).mp h4
    omega
  rcases hvals : (chunks 8 c).map count_bits_in with _ | ⟨v0, _ | ⟨v1, _ | ⟨v2, _ | ⟨v3, rest⟩⟩⟩⟩ <;>
    rw [hvals] at hsum hlen
  · simp only [l2_entry, hvals]
    simp at hsum
    omega
  · simp only [l2_entry, hvals]
    simp at hsum
    omega
  · simp only [l2_entry, hvals]
    simp at hsum
    omega
  · simp only [l2_entry, hvals]
    simp at hsum
    omega
  · have hrest : rest = [] := by
      simp only [List.length_cons] at hlen
      exact List.eq_nil_of_length_eq_zero (by omega)
    subst hrest
    simp only [l2_entry, hvals]
    simp at hsum
    omega

theorem build_l2_length (r : Nat) (cs : List (List Nat)) :
    (build_l2 r cs).1.length = cs.length := by
  induction cs generalizing r with
  | nil => rfl
  | cons c cs ih => simp [build_l2, ih]

theorem build_l2_total (r : Nat) (cs : List (List Nat)) (hcs : ∀ c ∈ cs, c.length ≤ 32) :
    (build_l2 r cs).2 = r + (cs.map count_bits_in).sum := by
  induction cs generalizing r with
  | nil => simp [build_l2]
  | cons c cs ih =>
    simp only [build_l2, List.map_cons, List.sum_cons]
    rw [ih _ (fun c' hc' => hcs c' (List.mem_cons_of_mem c hc')),
      l2_entry_total r c (hcs c (List.mem_cons_self c cs))]
    ring

theorem build_l2_getD (r : Nat) (cs : List (List Nat)) (hcs : ∀ c ∈ cs, c.length ≤ 32)
    (k : Nat) (hk : k < cs.length) :
    (build_l2 r cs).1.getD k 0
      = (l2_entry (r + ((cs.take k).map count_bits_in).sum) (cs.getD k [])).1 := by
  induction cs generalizing r k with
  | nil => simp at hk
  | cons c cs ih =>
    match k with
    | 0 => simp [build_l2]
    | k + 1 =>
      simp only [build_l2, List.getD_cons_succ]
      rw [ih _ (fun c' hc' => hcs c' (List.mem_cons_of_mem c hc')) k (by simpa using hk),
        l2_entry_total r c (hcs c (List.mem_cons_self c cs))]
      simp only [List.take_succ_cons, List.map_cons, List.sum_cons]
      congr 2
      ring

theorem build_l2_entries_getD (c : List Nat) (e : Nat) (h32 : 32 * e < c.length) :
    (build_l2 0 (chunks 32 c)).1.getD e 0
      = (l2_entry (count_bits_in (c.take (32 * e))) ((c.drop (32 * e)).take 32)).1 := by
  have hmem : ∀ c' ∈ chunks 32 c, c'.length ≤ 32 :=
    fun c' hc' => chunks_mem_length (by norm_num) c c' hc'
  have he : e < (chunks 32 c).length := (lt_chunks_length_iff (by norm_num) c e).mpr h32
  rw [build_l2_getD 0 _ hmem e he, chunks_getD (by norm_num) c e h32]
  have harg : (List.map count_bits_in (List.take e (chunks 32 c))).sum
      = count_bits_in (List.take (32 * e) c) := by
    rw [← count_bits_in_flatten, chunks_take_flatten (by norm_num)]
  rw [harg, Nat.zero_add]

theorem build_l2ranks_length_aux :
    ∀ (L : Nat) (content : List Nat) (total : Nat), content.length ≤ L →
      (build_go total (chunks 67108864 content)).2.1.length = (chunks 32 content).length := by
  intro L
  induction L with
  | zero =>
    intro content total h
    have hc : content = [] := List.eq_nil_of_length_eq_zero (by omega)
    subst hc; rfl
  | succ L ih =>
    intro content total h
    match content with
    | [] => rfl
    | x :: xs =>
      rw [chunks_cons (by norm_num)]
      simp only [build_go, List.length_append, build_l2_length]
      rw [ih ((x :: xs).drop 67108864) _ (by simp at h ⊢; omega)]
      by_cases hcase : (x :: xs).length ≤ 67108864
      · rw [List.take_of_length_le hcase, List.drop_eq_nil_of_le hcase, chunks_nil]
        simp
      · obtain ⟨a1, a2⟩ := chunks_length_bounds (show (0:Nat) < 32 by norm_num) (x :: xs)
        obtain ⟨b1, b2⟩ :=
          chunks_length_bounds (show (0:Nat) < 32 by norm_num) ((x :: xs).take 67108864)
        obtain ⟨c1, c2⟩ :=
          chunks_length_bounds (show (0:Nat) < 32 by norm_num) ((x :: xs).drop 67108864)
        have hlt : ((x :: xs).take 67108864).length = 67108864 := by
          simp only [List.length_take]
          omega
        have hld : ((x :: xs).drop 67108864).length = (x :: xs).length - 67108864 := by
          simp
        rw [hlt] at b1 b2
        rw [hld] at c1 c2
        omega

theorem build_l2ranks_length (content : List Nat) :
    (build content).2.1.length = (chunks 32 content).length :=
  build_l2ranks_length_aux content.length content 0 le_rfl

theorem build_go_cons (total : Nat) (c : List Nat) (cs : List (List Nat)) :
    build_go total (c :: cs)
      = (total :: (build_go (total + (build_l2 0 (chunks 32 c)).2) cs).1,
        (build_l2 0 (chunks 32 c)).1 ++ (build_go (total + (build_l2 0 (chunks 32 c)).2) cs).2.1,
        (build_go (total + (build_l2 0 (chunks 32 c)).2) cs).2.2) := rfl

theorem build_go_spec_aux :
    ∀ (L : Nat) (content : List Nat) (total i : Nat), content.length ≤ L →
      i < 64 * content.length →
      (build_go total (chunks 67108864 content)).1.getD (i / 2 ^ 32) 0
        = total + count_bits_in (content.take (67108864 * (i / 2 ^ 32)))
      ∧ (build_go total (chunks 67108864 content)).2.1.getD (i / 2048) 0
        = (l2_entry
            (count_bits_in ((content.drop (67108864 * (i / 2 ^ 32))).take
              (32 * (i / 2048) - 67108864 * (i / 2 ^ 32))))
            ((content.drop (32 * (i / 2048))).take 32)).1 := by
  intro L
  induction L with
  | zero =>
    intro content total i h hi
    have hc : content = [] := List.eq_nil_of_length_eq_zero (by omega)
    subst hc; simp at hi
  | succ L ih =>
    intro content total i h hi
    match content with
    | [] => simp at hi
    | x :: xs =>
      have hlen : (x :: xs).length = xs.length + 1 := by simp
      rw [chunks_cons (by norm_num)]
      by_cases hcase : (x :: xs).length ≤ 67108864
      · have htake : (x :: xs).take 67108864 = x :: xs := List.take_of_length_le hcase
        have hdropn : (x :: xs).drop 67108864 = [] := List.drop_eq_nil_of_le hcase
        rw [htake, hdropn, chunks_nil]
        have ha : i / 2 ^ 32 = 0 := by
          have hi2 : i < 2 ^ 32 := by omega
          omega
        constructor
        · rw [ha]
          simp only [build_go, List.getD_cons_zero, Nat.mul_zero, List.take_zero]
          simp [count_bits_in]
        · have he : 32 * (i / 2048) < (x :: xs).length := by omega
          rw [ha]
          simp only [build_go, List.append_nil]
          rw [build_l2_entries_getD _ _ he]
          simp
      · have hlentake : ((x :: xs).take 67108864).length = 67108864 := by
          simp only [List.length_take]
          omega
        have hmemtake : ∀ c' ∈ chunks 32 ((x :: xs).take 67108864), c'.length ≤ 32 :=
          fun c' hc' => chunks_mem_length (by norm_num) _ c' hc'
        have hEtot : (build_l2 0 (chunks 32 ((x :: xs).take 67108864))).2
            = count_bits_in ((x :: xs).take 67108864) := by
          rw [build_l2_total _ _ hmemtake, ← count_bits_in_flatten,
            chunks_flatten (by norm_num), Nat.zero_add]
        have hE1len : (build_l2 0 (chunks 32 ((x :: xs).take 67108864))).1.length = 2 ^ 21 := by
          rw [build_l2_length]
          obtain ⟨b1, b2⟩ :=
            chunks_length_bounds (show (0:Nat) < 32 by norm_num) ((x :: xs).take 67108864)
          rw [hlentake] at b1 b2
          omega
        by_cases hi32 : i < 2 ^ 32
        · have ha : i / 2 ^ 32 = 0 := by omega
          constructor
          · rw [ha]
            simp only [build_go, List.getD_cons_zero, Nat.mul_zero, List.take_zero]
            simp [count_bits_in]
          · have he : i / 2048 < 2 ^ 21 := by omega
            rw [ha]
            simp only [build_go]
            rw [List.getD_append _ _ _ _ (by rw [hE1len]; exact he)]
            have he32 : 32 * (i / 2048) < ((x :: xs).take 67108864).length := by
              rw [hlentake]; omega
            rw [build_l2_entries_getD _ _ he32]
            have h1 : ((x :: xs).take 67108864).take (32 * (i / 2048))
                = (x :: xs).take (32 * (i / 2048)) := by
              rw [List.take_take]
              congr 1
              simp only [Nat.min_def]
              split <;> omega
            have h2 : (((x :: xs).take 67108864).drop (32 * (i / 2048))).take 32
                = ((x :: xs).drop (32 * (i / 2048))).take 32 := by
              rw [List.drop_take, List.take_take]
              congr 1
              simp only [Nat.min_def]
              split <;> omega
            rw [h1, h2]
            simp
        · have hxs : ((x :: xs).drop 67108864).length = (x :: xs).length - 67108864 := by
            simp
          have hi' : i - 2 ^ 32 < 64 * ((x :: xs).drop 67108864).length := by
            rw [hxs]
            omega
          have ihres := ih ((x :: xs).drop 67108864)
            (total + (build_l2 0 (chunks 32 ((x :: xs).take 67108864))).2) (i - 2 ^ 32)
            (by rw [hxs]; omega) hi'
          have ha : i / 2 ^ 32 = (i - 2 ^ 32) / 2 ^ 32 + 1 := by omega
          have he : i / 2048 = (i - 2 ^ 32) / 2048 + 2 ^ 21 := by omega
          constructor
          · rw [ha]
            rw [build_go_cons, List.getD_cons_succ]
            rw [ihres.1, hEtot]
            have hsplit : (x :: xs).take (67108864 * ((i - 2 ^ 32) / 2 ^ 32 + 1))
                = (x :: xs).take 67108864
                  ++ ((x :: xs).drop 67108864).take (67108864 * ((i - 2 ^ 32) / 2 ^ 32)) := by
              have hmul : 67108864 * ((i - 2 ^ 32) / 2 ^ 32 + 1)
                  = 67108864 + 67108864 * ((i - 2 ^ 32) / 2 ^ 32) := by ring
              rw [hmul, List.take_add]
            rw [hsplit, count_bits_in_append]
            ring
          · rw [he, ha]
            rw [build_go_cons]
            rw [List.getD_append_right _ _ _ _ (by rw [hE1len]; omega)]
            rw [hE1len]
            have hidx : (i - 2 ^ 32) / 2048 + 2 ^ 21 - 2 ^ 21 = (i - 2 ^ 32) / 2048 := by
              omega
            rw [hidx, ihres.2]
            have hd1 : ((x :: xs).drop 67108864).drop (67108864 * ((i - 2 ^ 32) / 2 ^ 32))
                = (x :: xs).drop (67108864 * ((i - 2 ^ 32) / 2 ^ 32 + 1)) := by
              have hq : 67108864 + 67108864 * ((i - 2 ^ 32) / 2 ^ 32)
                  = 67108864 * ((i - 2 ^ 32) / 2 ^ 32 + 1) := by ring
              rw [List.drop_drop, hq]
            have hd2 : ((x :: xs).drop 67108864).drop (32 * ((i - 2 ^ 32) / 2048))
                = (x :: xs).drop (32 * ((i - 2 ^ 32) / 2048 + 2 ^ 21)) := by
              have hq : 67108864 + 32 * ((i - 2 ^ 32) / 2048)
                  = 32 * ((i - 2 ^ 32) / 2048 + 2 ^ 21) := by ring
              rw [List.drop_drop, hq]
            rw [hd1, hd2]
            have harg : 32 * ((i - 2 ^ 32) / 2048 + 2 ^ 21)
                  - 67108864 * ((i - 2 ^ 32) / 2 ^ 32 + 1)
                = 32 * ((i - 2 ^ 32) / 2048) - 67108864 * ((i - 2 ^ 32) / 2 ^ 32) := by
              omega
            rw [harg]

/-- The directory facts used by the rank proof, at top level: for any in-bounds
bit index `i`, the L1 entry plus the low 32 bits' base of the L2 entry recover
the popcount up to the enclosing L2 block, and the packed entry is the
`l2_entry` of the block's 32-word chunk. -/
theorem build_spec (content : List Nat) (i : Nat) (hi : i < 64 * content.length) :
    (build content).1.getD (i / 2 ^ 32) 0
      = count_bits_in (content.take (67108864 * (i / 2 ^ 32)))
    ∧ (build content).2.1.getD (i / 2048) 0
      = (l2_entry
          (count_bits_in ((content.drop (67108864 * (i / 2 ^ 32))).take
            (32 * (i / 2048) - 67108864 * (i / 2 ^ 32))))
          ((content.drop (32 * (i / 2048))).take 32)).1 := by
  have h := build_go_spec_aux content.length content 0 i le_rfl hi
  simpa [build] using h

theorem get?_eq_some_getD (l : List Nat) (n : Nat) (h : n < l.length) :
    l.get? n = some (l.getD n 0) := by
  rw [List.get?_eq_getElem?, List.getElem?_eq_getElem h, List.getD_eq_getElem?_getD,
    List.getElem?_eq_getElem h]
  rfl

/-- Correctness of the directory-based `try_rank` against the naive bit count:
in bounds it returns exactly the number of ones among the first `i` bits, out
of bounds it returns `none`. -/
theorem try_rank_spec (content : List Nat) (i : Nat) :
    (ArrayWithRankSelect101111.ofContent content).try_rank i
      = if i < 64 * content.length then some (rank_naive content i) else none := by
  by_cases hi : i < 64 * content.length
  · rw [if_pos hi]
    have hw : i / 64 < content.length := by omega
    have hget : content.get? (i / 64) = some (content.getD (i / 64) 0) :=
      get?_eq_some_getD content (i / 64) hw
    simp only [ArrayWithRankSelect101111.try_rank, ArrayWithRankSelect101111.ofContent, hget]
    obtain ⟨hl1, hl2⟩ := build_spec content i hi
    rw [hl1, hl2]
    -- abbreviations for the directory coordinates
    have hae : 67108864 * (i / 2 ^ 32) ≤ 32 * (i / 2048) := by omega
    have haeb : 32 * (i / 2048) - 67108864 * (i / 2 ^ 32) ≤ 67108864 - 32 := by omega
    have hrel_lt :
        count_bits_in ((content.drop (67108864 * (i / 2 ^ 32))).take
          (32 * (i / 2048) - 67108864 * (i / 2 ^ 32))) < 2 ^ 32 := by
      have h1 := count_bits_in_le ((content.drop (67108864 * (i / 2 ^ 32))).take
        (32 * (i / 2048) - 67108864 * (i / 2 ^ 32)))
      have h2 := List.length_take_le (32 * (i / 2048) - 67108864 * (i / 2 ^ 32))
        (content.drop (67108864 * (i / 2 ^ 32)))
      have h3 : 64 * ((content.drop (67108864 * (i / 2 ^ 32))).take
          (32 * (i / 2048) - 67108864 * (i / 2 ^ 32))).length ≤ 64 * (67108864 - 32) :=
        Nat.mul_le_mul_left 64 (le_trans h2 haeb)
      omega
    have hCpos : 0 < ((content.drop (32 * (i / 2048))).take 32).length := by
      simp only [List.length_take, List.length_drop]
      have h32e : 32 * (i / 2048) ≤ i / 64 := by omega
      omega
    have hCle : ((content.drop (32 * (i / 2048))).take 32).length ≤ 32 :=
      List.length_take_le 32 _
    have hlow := l2_entry_low32 _ _ hrel_lt hCpos hCle
    have hsub4 : (i / 512) % 4 < 4 := by omega
    have hsublen : 8 * ((i / 512) % 4) < ((content.drop (32 * (i / 2048))).take 32).length := by
      simp only [List.length_take, List.length_drop]
      have h8b : 32 * (i / 2048) + 8 * ((i / 512) % 4) = 8 * (i / 512) := by omega
      have h8bw : 8 * (i / 512) ≤ i / 64 := by omega
      omega
    have hdelta := l2_entry_delta _ _ hrel_lt hCle ((i / 512) % 4) hsub4 hsublen
    have htt : ((content.drop (32 * (i / 2048))).take 32).take (8 * ((i / 512) % 4))
        = (content.drop (32 * (i / 2048))).take (8 * ((i / 512) % 4)) := by
      rw [List.take_take]
      congr 1
      simp only [Nat.min_def]
      split <;> omega
    rw [htt] at hdelta
    have hpart : popcount64 (content.getD (i / 64) 0 &&& n_lowest_bits (i % 64))
        = (List.range (i % 64)).countP (fun k => (content.getD (i / 64) 0).testBit k) :=
      popcount64_and_mask _ _ (by omega)
    have hrank := rank_split content i
    have hS1 : count_bits_in (content.take (32 * (i / 2048)))
        = count_bits_in (content.take (67108864 * (i / 2 ^ 32)))
          + count_bits_in ((content.drop (67108864 * (i / 2 ^ 32))).take
            (32 * (i / 2048) - 67108864 * (i / 2 ^ 32))) :=
      count_take_split content _ _ hae
    have hS2 : count_bits_in (content.take (8 * (i / 512)))
        = count_bits_in (content.take (32 * (i / 2048)))
          + count_bits_in ((content.drop (32 * (i / 2048))).take
            (8 * (i / 512) - 32 * (i / 2048))) :=
      count_take_split content _ _ (by omega)
    have hS3 : count_bits_in (content.take (i / 64))
        = count_bits_in (content.take (8 * (i / 512)))
          + count_bits_in ((content.drop (8 * (i / 512))).take (i / 64 - 8 * (i / 512))) :=
      count_take_split content _ _ (by omega)
    have harg2 : 8 * (i / 512) - 32 * (i / 2048) = 8 * ((i / 512) % 4) := by omega
    rw [harg2] at hS2
    have hblk : i / 512 * 8 = 8 * (i / 512) := by ring
    rw [hlow, hdelta, hblk]
    rw [Option.some_inj]
    omega
  · rw [if_neg hi]
    have hw : content.length ≤ i / 64 := by omega
    have hget : content.get? (i / 64) = none := List.get?_eq_none.mpr hw
    simp only [ArrayWithRankSelect101111.try_rank, ArrayWithRankSelect101111.ofContent, hget]

/-! ### Characterizing sorted filtered positions -/

theorem countP_range_mono (P : Nat → Bool) {m n : Nat} (h : m ≤ n) :
    (List.range m).countP P ≤ (List.range n).countP P := by
  have hsplit : (n : Nat) = m + (n - m) := by omega
  rw [hsplit, List.range_add, List.countP_append]
  omega

theorem countP_range_succ (P : Nat → Bool) (p : Nat) :
    (List.range (p + 1)).countP P
      = (List.range p).countP P + (if P p then 1 else 0) := by
  rw [List.range_succ, List.countP_append]
  simp [List.countP_cons]

theorem countP_range_le_add (P : Nat → Bool) {m n : Nat} (h : m ≤ n) :
    (List.range n).countP P ≤ (List.range m).countP P + (n - m) := by
  have hsplit : (n : Nat) = m + (n - m) := by omega
  rw [hsplit, List.range_add, List.countP_append]
  have := List.countP_le_length P (l := (List.range (n - m)).map (fun x => m + x))
  simp only [List.length_map, List.length_range] at this
  omega

theorem filter_range_get? (P : Nat → Bool) (n k p : Nat) :
    ((List.range n).filter P).get? k = some p
      ↔ (p < n ∧ P p = true ∧ (List.range p).countP P = k) := by
  induction n generalizing k with
  | zero => simp
  | succ n ih =>
    rw [List.range_succ, List.filter_append]
    by_cases hk : k < ((List.range n).filter P).length
    · rw [List.get?_append hk, ih]
      constructor
      · rintro ⟨h1, h2, h3⟩
        exact ⟨by omega, h2, h3⟩
      · rintro ⟨h1, h2, h3⟩
        refine ⟨?_, h2, h3⟩
        rcases Nat.lt_or_ge p n with h | h
        · exact h
        · exfalso
          have hpn : p = n := by omega
          subst hpn
          rw [← List.countP_eq_length_filter] at hk
          omega
    · rw [List.get?_append_right (by omega)]
      have hlen : ((List.range n).filter P).length = (List.range n).countP P :=
        (List.countP_eq_length_filter P (List.range n)).symm
      by_cases hP : P n
      · have hfil : List.filter P [n] = [n] := by simp [hP]
        rw [hfil]
        match hkl : k - ((List.range n).filter P).length with
        | 0 =>
          constructor
          · rintro h
            have hp : p = n := by
              cases h
              rfl
            subst hp
            refine ⟨by omega, hP, by omega⟩
          · rintro ⟨h1, h2, h3⟩
            rcases Nat.lt_or_ge p n with h | h
            · exfalso
              have hlt : (List.range p).countP P < (List.range n).countP P := by
                have h1' := countP_range_succ P p
                have h2' := countP_range_mono P (show p + 1 ≤ n by omega)
                simp [h2] at h1'
                omega
              omega
            · have hp : p = n := by omega
              subst hp
              rfl
        | m + 1 =>
          have hnone : ([n] : List Nat).get? (m + 1) = none := rfl
          rw [hnone]
          constructor
          · intro h
            cases h
          · rintro ⟨h1, h2, h3⟩
            exfalso
            rcases Nat.lt_or_ge p n with h | h
            · have := countP_range_mono P (show p ≤ n by omega)
              omega
            · have hp : p = n := by omega
              subst hp
              omega
      · have hfil : List.filter P [n] = [] := by simp [hP]
        rw [hfil]
        have hnone : ([] : List Nat).get? (k - ((List.range n).filter P).length) = none :=
          List.get?_eq_none.mpr (by simp)
        rw [hnone]
        constructor
        · intro h
          cases h
        · rintro ⟨h1, h2, h3⟩
          exfalso
          rcases Nat.lt_or_ge p n with h | h
          · have hlt : (List.range p).countP P < (List.range n).countP P := by
              have h1' := countP_range_succ P p
              have h2' := countP_range_mono P (show p + 1 ≤ n by omega)
              simp [h2] at h1'
              omega
            omega
          · have hp : p = n := by omega
            subst hp
            simp [hP] at h2

theorem one_positions_length (content : List Nat) :
    (one_positions content).length = count_bits_in content := by
  rw [one_positions, ← List.countP_eq_length_filter]
  have := rank_naive_all content
  rw [rank_naive] at this
  exact this

theorem zero_positions_length (content : List Nat) :
    (zero_positions content).length = 64 * content.length - count_bits_in content := by
  rw [zero_positions, ← List.countP_eq_length_filter]
  have hsum : (List.range (64 * content.length)).countP (fun i => !get_bit content i)
      + (List.range (64 * content.length)).countP (fun i => get_bit content i)
      = 64 * content.length := by
    induction (64 * content.length) with
    | zero => simp
    | succ n ih =>
      rw [countP_range_succ, countP_range_succ]
      by_cases h : get_bit content n <;> simp [h] <;> omega
  have := rank_naive_all content
  rw [rank_naive] at this
  omega

theorem one_positions_get? (content : List Nat) (k p : Nat) :
    (one_positions content).get? k = some p
      ↔ (p < 64 * content.length ∧ get_bit content p = true ∧ rank_naive content p = k) :=
  filter_range_get? _ _ k p

theorem zero_positions_get? (content : List Nat) (k p : Nat) :
    (zero_positions content).get? k = some p
      ↔ (p < 64 * content.length ∧ get_bit content p = false
        ∧ p - rank_naive content p = k) := by
  rw [zero_positions, filter_range_get?]
  have hcnt : ∀ q : Nat, (List.range q).countP (fun i => !get_bit content i)
      = q - rank_naive content q := by
    intro q
    have hsum : (List.range q).countP (fun i => !get_bit content i)
        + (List.range q).countP (fun i => get_bit content i) = q := by
      induction q with
      | zero => simp
      | succ n ih =>
        rw [countP_range_succ, countP_range_succ]
        by_cases h : get_bit content n <;> simp [h] <;> omega
    rw [rank_naive]
    omega
  rw [hcnt]
  constructor
  · rintro ⟨h1, h2, h3⟩
    exact ⟨h1, by simpa using h2, h3⟩
  · rintro ⟨h1, h2, h3⟩
    exact ⟨h1, by simpa using h2, h3⟩

/-! ### Binary search agrees with position lookup -/

theorem rank_naive_mono (content : List Nat) {m n : Nat} (h : m ≤ n) :
    rank_naive content m ≤ rank_naive content n :=
  countP_range_mono _ h

theorem rank_naive_succ (content : List Nat) (q : Nat) :
    rank_naive content (q + 1)
      = rank_naive content q + (if get_bit content q then 1 else 0) :=
  countP_range_succ _ q

theorem rank_naive_le_add (content : List Nat) {m n : Nat} (h : m ≤ n) :
    rank_naive content n ≤ rank_naive content m + (n - m) :=
  countP_range_le_add _ h

theorem bsearch_go_correct (f : Nat → Nat) (k q : Nat)
    (hmono : ∀ m n : Nat, m ≤ n → f m ≤ f n) (hfq : f q = k) (hq1 : k + 1 ≤ f (q + 1)) :
    ∀ fuel lo hi : Nat, hi - lo ≤ fuel → lo ≤ q → q < hi →
      bsearch_go f k fuel lo hi = q := by
  intro fuel
  induction fuel with
  | zero =>
    intro lo hi h1 h2 h3
    omega
  | succ fuel ih =>
    intro lo hi h1 h2 h3
    rw [bsearch_go]
    by_cases hsmall : hi - lo ≤ 1
    · rw [if_pos hsmall]
      omega
    · rw [if_neg hsmall]
      by_cases hle : f ((lo + hi) / 2) ≤ k
      · rw [if_pos hle]
        apply ih
        · omega
        · by_contra hgt
          have hstep := hmono (q + 1) ((lo + hi) / 2) (by omega)
          omega
        · exact h3
      · rw [if_neg hle]
        apply ih
        · omega
        · exact h2
        · by_contra hge
          have hstep := hmono ((lo + hi) / 2) q (by omega)
          omega

/-- The two select policies agree on select-one for every bit pattern and
every `k`. -/
theorem select_policies_agree (content : List Nat) (k : Nat) :
    binary_rank_search_select content k = combined_sampling_select content k := by
  unfold binary_rank_search_select combined_sampling_select
  by_cases hk : k < count_bits_in content
  · rw [if_pos hk]
    have hlen : k < (one_positions content).length := by
      rw [one_positions_length]
      exact hk
    have hget : (one_positions content).get? k
        = some ((one_positions content).get ⟨k, hlen⟩) := List.get?_eq_get hlen
    obtain ⟨hp1, hp2, hp3⟩ := (one_positions_get? content k _).mp hget
    rw [hget]
    congr 1
    exact bsearch_go_correct (rank_naive content) k _
      (fun m n h => rank_naive_mono content h) hp3
      (by rw [rank_naive_succ, hp2, hp3]; simp)
      (64 * content.length) 0 (64 * content.length) (by omega) (by omega) hp1
  · rw [if_neg hk]
    symm
    rw [List.get?_eq_none, one_positions_length]
    omega

/-- The two select policies agree on select-zero for every bit pattern and
every `k`. -/
theorem select0_policies_agree (content : List Nat) (k : Nat) :
    binary_rank_search_select0 content k = combined_sampling_select0 content k := by
  unfold binary_rank_search_select0 combined_sampling_select0
  by_cases hk : k < 64 * content.length - count_bits_in content
  · rw [if_pos hk]
    have hlen : k < (zero_positions content).length := by
      rw [zero_positions_length]
      exact hk
    have hget : (zero_positions content).get? k
        = some ((zero_positions content).get ⟨k, hlen⟩) := List.get?_eq_get hlen
    obtain ⟨hp1, hp2, hp3⟩ := (zero_positions_get? content k _).mp hget
    rw [hget]
    congr 1
    have hmono0 : ∀ m n : Nat, m ≤ n →
        m - rank_naive content m ≤ n - rank_naive content n := by
      intro m n h
      have h1 := rank_naive_le_add content h
      have h2 := rank_naive_mono content h
      omega
    have hq1 : k + 1 ≤ ((zero_positions content).get ⟨k, hlen⟩ + 1)
        - rank_naive content ((zero_positions content).get ⟨k, hlen⟩ + 1) := by
      have hstep := rank_naive_succ content ((zero_positions content).get ⟨k, hlen⟩)
      rw [hp2] at hstep
      simp only [Bool.false_eq_true, if_false, Nat.add_zero] at hstep
      have hle : rank_naive content ((zero_positions content).get ⟨k, hlen⟩)
          ≤ (zero_positions content).get ⟨k, hlen⟩ := by
        have h := List.countP_le_length
          (fun j => get_bit content j)
          (l := List.range ((zero_positions content).get ⟨k, hlen⟩))
        simpa [rank_naive] using h
      omega
    exact bsearch_go_correct (fun i => i - rank_naive content i) k _
      hmono0 hp3 hq1
      (64 * content.length) 0 (64 * content.length) (by omega) (by omega) hp1
  · rw [if_neg hk]
    symm
    rw [List.get?_eq_none, zero_positions_length]
    omega

/-! ## The actual L2 field layout (for claim C8) -/

theorem l2_fields_direct (r A B C : Nat) (hr : r < 2 ^ 32) (hA : A < 2 ^ 11)
    (hB : B < 2 ^ 11) (hC : C < 2 ^ 10) :
    ((2 ^ 54 * C + 2 ^ 43 * B + 2 ^ 32 * A + r) >>> 54) &&& 1023 = C
    ∧ ((2 ^ 54 * C + 2 ^ 43 * B + 2 ^ 32 * A + r) >>> 43) &&& 2047 = B
    ∧ ((2 ^ 54 * C + 2 ^ 43 * B + 2 ^ 32 * A + r) >>> 32) &&& 2047 = A := by
  have e1 : (1023 : Nat) = 2 ^ 10 - 1 := by norm_num
  have e2 : (2047 : Nat) = 2 ^ 11 - 1 := by norm_num
  rw [e1, e2]
  simp only [Nat.and_pow_two_sub_one_eq_mod, Nat.shiftRight_eq_div_pow]
  norm_num
  omega

/-- The packed entry of a *full* L2 block, decomposed at the offsets the code
actually uses: relative base `r₀` in bits [0..32), `r₃−r₀` at [32..43),
`r₂−r₀` at [43..54), `r₁−r₀` at [54..64), and the branch-free query read
`(entry >> 32) >> (33 − 11·sub) & 0x7FF`. -/
theorem l2_layout_spec (content : List Nat) (e : Nat)
    (hfull : 32 * (e + 1) ≤ content.length) :
    ((build content).1.getD (2048 * e / 2 ^ 32) 0
        + ((build content).2.1.getD e 0 &&& 4294967295)
      = rank_naive content (2048 * e))
    ∧ (((build content).2.1.getD e 0 >>> 54) &&& 1023
      = rank_naive content (2048 * e + 512) - rank_naive content (2048 * e))
    ∧ (((build content).2.1.getD e 0 >>> 43) &&& 2047
      = rank_naive content (2048 * e + 1024) - rank_naive content (2048 * e))
    ∧ (((build content).2.1.getD e 0 >>> 32) &&& 2047
      = rank_naive content (2048 * e + 1536) - rank_naive content (2048 * e))
    ∧ (∀ sub : Nat, sub < 4 →
      (((build content).2.1.getD e 0 >>> 32) >>> (33 - 11 * sub)) &&& 2047
        = rank_naive content (2048 * e + 512 * sub) - rank_naive content (2048 * e)) := by
  have hi : 2048 * e < 64 * content.length := by omega
  have hi2048 : 2048 * e / 2048 = e := by omega
  obtain ⟨hl1, hl2⟩ := build_spec content (2048 * e) hi
  rw [hi2048] at hl2
  -- the chunk is a full 32-word block
  have hClen : ((content.drop (32 * e)).take 32).length = 32 := by
    simp only [List.length_take, List.length_drop]
    omega
  -- the relative base
  have hae : 67108864 * (2048 * e / 2 ^ 32) ≤ 32 * e := by omega
  have haeb : 32 * e - 67108864 * (2048 * e / 2 ^ 32) ≤ 67108864 - 32 := by omega
  have hrel_lt : count_bits_in ((content.drop (67108864 * (2048 * e / 2 ^ 32))).take
      (32 * e - 67108864 * (2048 * e / 2 ^ 32))) < 2 ^ 32 := by
    have h1 := count_bits_in_le ((content.drop (67108864 * (2048 * e / 2 ^ 32))).take
      (32 * e - 67108864 * (2048 * e / 2 ^ 32)))
    have h2 := List.length_take_le (32 * e - 67108864 * (2048 * e / 2 ^ 32))
      (content.drop (67108864 * (2048 * e / 2 ^ 32)))
    have h3 : 64 * ((content.drop (67108864 * (2048 * e / 2 ^ 32))).take
        (32 * e - 67108864 * (2048 * e / 2 ^ 32))).length ≤ 64 * (67108864 - 32) :=
      Nat.mul_le_mul_left 64 (le_trans h2 haeb)
    omega
  obtain ⟨A, B, C, heq, hAb, hBb, hCb, hC8, hB16, hA24⟩ :=
    l2_entry_fields _ ((content.drop (32 * e)).take 32) hrel_lt (by omega) (by omega)
  have hC8' := hC8 (by omega)
  have hB16' := hB16 (by omega)
  have hA24' := hA24 (by omega)
  -- identify the sub-block popcounts with rank differences
  have hdk : ∀ k : Nat, k ≤ 24 →
      count_bits_in (((content.drop (32 * e)).take 32).take k)
        = rank_naive content (2048 * e + 64 * k) - rank_naive content (2048 * e) := by
    intro k hk
    have htt : ((content.drop (32 * e)).take 32).take k = (content.drop (32 * e)).take k := by
      rw [List.take_take]
      congr 1
      simp only [Nat.min_def]
      split <;> omega
    rw [htt]
    have h1 : rank_naive content (2048 * e) = count_bits_in (content.take (32 * e)) := by
      have := rank_words content (32 * e)
      rw [show 64 * (32 * e) = 2048 * e by ring] at this
      exact this
    have h2 : rank_naive content (2048 * e + 64 * k)
        = count_bits_in (content.take (32 * e + k)) := by
      have := rank_words content (32 * e + k)
      rw [show 64 * (32 * e + k) = 2048 * e + 64 * k by ring] at this
      exact this
    have h3 := count_take_split content (32 * e) (32 * e + k) (by omega)
    have h4 : 32 * e + k - 32 * e = k := by omega
    rw [h4] at h3
    omega
  have hd8 := hdk 8 (by omega)
  have hd16 := hdk 16 (by omega)
  have hd24 := hdk 24 (by omega)
  obtain ⟨g1, g2, g3⟩ := l2_fields_direct _ A B C hrel_lt hAb hBb hCb
  obtain ⟨f1, f2, f3, f4, f5⟩ := l2_fields_core _ A B C hrel_lt hAb hBb hCb
  refine ⟨?_, ?_, ?_, ?_, ?_⟩
  · rw [hl2, heq, f1]
    have h1 : rank_naive content (2048 * e) = count_bits_in (content.take (32 * e)) := by
      have := rank_words content (32 * e)
      rw [show 64 * (32 * e) = 2048 * e by ring] at this
      exact this
    have h3 := count_take_split content (67108864 * (2048 * e / 2 ^ 32)) (32 * e) hae
    rw [hl1, h1]
    omega
  · rw [hl2, heq, g1, hC8', hd8]
  · rw [hl2, heq, g2, hB16', hd16]
  · rw [hl2, heq, g3, hA24', hd24]
  · intro sub hsub
    interval_cases sub
    · rw [hl2, heq]
      have h0 : (33 - 11 * 0 : Nat) = 33 := by norm_num
      rw [h0, f2]
      simp
    · rw [hl2, heq]
      have h1 : (33 - 11 * 1 : Nat) = 22 := by norm_num
      rw [h1, f3, hC8', hd8]
    · rw [hl2, heq]
      have h2 : (33 - 11 * 2 : Nat) = 11 := by norm_num
      rw [h2, f4, hB16', hd16]
    · rw [hl2, heq]
      have h3 : (33 - 11 * 3 : Nat) = 0 := by norm_num
      rw [h3, f5, hA24', hd24]

/-! ## Bit-buffer write/read lemmas (towards wavelet-matrix correctness) -/

theorem set_bit_length (ws : List Nat) (i : Nat) : (set_bit ws i).length = ws.length :=
  List.length_set ws _ _

theorem getD_set_self (l : List Nat) (k a : Nat) (hk : k < l.length) :
    (l.set k a).getD k 0 = a := by
  rw [List.getD_eq_getElem?_getD, List.getElem?_eq_getElem (by rw [List.length_set]; exact hk)]
  simp [List.getElem_set]

theorem getD_set_other (l : List Nat) (k n a : Nat) (hne : k ≠ n) :
    (l.set k a).getD n 0 = l.getD n 0 := by
  by_cases hn : n < l.length
  · rw [List.getD_eq_getElem?_getD, List.getD_eq_getElem?_getD,
      List.getElem?_eq_getElem (by rw [List.length_set]; exact hn),
      List.getElem?_eq_getElem hn]
    simp [List.getElem_set, hne]
  · rw [List.getD_eq_default _ _ (by rw [List.length_set]; omega),
      List.getD_eq_default _ _ (by omega)]

theorem get_bit_set_bit (ws : List Nat) (i j : Nat) (hi : i < 64 * ws.length) :
    get_bit (set_bit ws i) j = (get_bit ws j || decide (j = i)) := by
  unfold get_bit set_bit
  by_cases hw : j / 64 = i / 64
  · rw [hw, getD_set_self _ _ _ (by omega)]
    rw [Nat.testBit_lor, Nat.shiftLeft_eq, Nat.one_mul, Nat.testBit_two_pow]
    by_cases hbit : j % 64 = i % 64
    · have hji : (j = i) ↔ True := by
        constructor
        · intro h; trivial
        · intro _; omega
      simp [hbit, hji]
    · have hji : (j = i) ↔ False := by
        constructor
        · intro h; omega
        · intro h; exact absurd h (by trivial)
      simp [hbit, hji]
      intro h
      omega
  · rw [getD_set_other _ _ _ _ (Ne.symm hw)]
    have hji : ¬(j = i) := by omega
    simp [hji]

theorem write_bits_succ (ws : List Nat) (pos v w : Nat) :
    write_bits ws pos v (w + 1)
      = (if v.testBit w then set_bit (write_bits ws pos v w) (pos + w)
        else write_bits ws pos v w) := by
  unfold write_bits
  rw [List.range_succ, List.foldl_append]
  rfl

theorem write_bits_length (ws : List Nat) (pos v w : Nat) :
    (write_bits ws pos v w).length = ws.length := by
  induction w with
  | zero => rfl
  | succ w ih =>
    rw [write_bits_succ]
    by_cases h : v.testBit w
    · rw [if_pos h, set_bit_length, ih]
    · rw [if_neg h, ih]

theorem write_bits_get_bit (ws : List Nat) (pos v w j : Nat)
    (hcap : pos + w ≤ 64 * ws.length) :
    (get_bit (write_bits ws pos v w) j = true
      ↔ (get_bit ws j = true ∨ (pos ≤ j ∧ j < pos + w ∧ v.testBit (j - pos) = true))) := by
  induction w with
  | zero =>
    constructor
    · intro h; exact Or.inl h
    · rintro (h | ⟨h1, h2, _⟩)
      · exact h
      · omega
  | succ w ih =>
    have ih' := ih (by omega)
    rw [write_bits_succ]
    by_cases hbit : v.testBit w
    · rw [if_pos hbit]
      rw [get_bit_set_bit _ _ _ (by rw [write_bits_length]; omega)]
      rw [Bool.or_eq_true, decide_eq_true_iff, ih']
      constructor
      · rintro ((h | ⟨h1, h2, h3⟩) | h)
        · exact Or.inl h
        · exact Or.inr ⟨h1, by omega, h3⟩
        · subst h
          refine Or.inr ⟨by omega, by omega, ?_⟩
          have : pos + w - pos = w := by omega
          rw [this]
          exact hbit
      · rintro (h | ⟨h1, h2, h3⟩)
        · exact Or.inl (Or.inl h)
        · by_cases hj : j = pos + w
          · exact Or.inr hj
          · exact Or.inl (Or.inr ⟨h1, by omega, h3⟩)
    · rw [if_neg hbit, ih']
      constructor
      · rintro (h | ⟨h1, h2, h3⟩)
        · exact Or.inl h
        · exact Or.inr ⟨h1, by omega, h3⟩
      · rintro (h | ⟨h1, h2, h3⟩)
        · exact Or.inl h
        · refine Or.inr ⟨h1, ?_, h3⟩
          by_cases hj : j = pos + w
          · exfalso
            have hw : j - pos = w := by omega
            rw [hw] at h3
            exact hbit h3
          · omega

theorem write_bits_get_bit_outside (ws : List Nat) (pos v w j : Nat)
    (hcap : pos + w ≤ 64 * ws.length) (hout : j < pos ∨ pos + w ≤ j) :
    get_bit (write_bits ws pos v w) j = get_bit ws j := by
  have h := write_bits_get_bit ws pos v w j hcap
  cases hb : get_bit ws j
  · cases hb' : get_bit (write_bits ws pos v w) j
    · rfl
    · exfalso
      rcases h.mp hb' with h1 | ⟨h1, h2, _⟩
      · rw [hb] at h1; cases h1
      · omega
  · exact h.mpr (Or.inl hb)

theorem ofBits_testBit (w : Nat) : ∀ v : Nat,
    ofBits ((List.range w).map (fun k => v.testBit k)) = v % 2 ^ w := by
  induction w with
  | zero =>
    intro v
    simp [ofBits, Nat.mod_one]
  | succ w ih =>
    intro v
    rw [List.range_succ_eq_map, List.map_cons, List.map_map]
    have hmap : (List.range w).map ((fun k => v.testBit k) ∘ Nat.succ)
        = (List.range w).map (fun k => (v / 2).testBit k) := by
      apply List.map_congr_left
      intro k _
      simp only [Function.comp_apply]
      exact Nat.testBit_succ v k
    rw [hmap]
    simp only [ofBits, ih (v / 2)]
    have hb0 : (if v.testBit 0 then 1 else 0) = v % 2 := by
      rw [Nat.testBit_zero]
      by_cases h : v % 2 = 1
      · simp [h]
      · have h0 : v % 2 = 0 := by omega
        simp [h, h0]
    rw [hb0]
    have h1 : v % 2 ^ (w + 1) % 2 = v % 2 := by
      apply Nat.mod_mod_of_dvd
      exact Dvd.intro_left (2 ^ w) (by ring)
    have h2 : v % 2 ^ (w + 1) / 2 = v / 2 % 2 ^ w := by
      have : (2 : Nat) ^ (w + 1) = 2 * 2 ^ w := by ring
      rw [this]
      exact Nat.mod_mul_right_div_self v 2 (2 ^ w)
    omega

theorem get_bits_congr (ws ws' : List Nat) (pos w : Nat)
    (h : ∀ k, k < w → get_bit ws (pos + k) = get_bit ws' (pos + k)) :
    get_bits ws pos w = get_bits ws' pos w := by
  unfold get_bits
  congr 1
  apply List.map_congr_left
  intro k hk
  exact h k (List.mem_range.mp hk)

theorem get_bits_of_write (ws : List Nat) (pos v w : Nat)
    (hcap : pos + w ≤ 64 * ws.length)
    (hzero : ∀ k, k < w → get_bit ws (pos + k) = false) :
    get_bits (write_bits ws pos v w) pos w = v % 2 ^ w := by
  unfold get_bits
  have hmap : (List.range w).map (fun k => get_bit (write_bits ws pos v w) (pos + k))
      = (List.range w).map (fun k => v.testBit k) := by
    apply List.map_congr_left
    intro k hk
    have hkw : k < w := List.mem_range.mp hk
    have h := write_bits_get_bit ws pos v w (pos + k) hcap
    have hsub : pos + k - pos = k := by omega
    rw [hsub] at h
    cases hvb : v.testBit k
    · cases hb : get_bit (write_bits ws pos v w) (pos + k)
      · rfl
      · exfalso
        rcases h.mp hb with h1 | ⟨_, _, h3⟩
        · rw [hzero k hkw] at h1; cases h1
        · rw [hvb] at h3; cases h3
    · exact h.mpr (Or.inr ⟨by omega, by omega, hvb⟩)
  rw [hmap]
  exact ofBits_testBit w v

/-! ## Generic list-counting lemmas for the wavelet-matrix proof -/

theorem countP_not_add (P : Nat → Bool) (l : List Nat) :
    l.countP (fun v => !P v) + l.countP P = l.length := by
  induction l with
  | nil => rfl
  | cons x xs ih =>
    rw [List.countP_cons, List.countP_cons, List.length_cons]
    cases hx : P x <;> simp [hx] <;> omega

theorem countP_filter_not_add (P Q : Nat → Bool) (l : List Nat) :
    (l.filter (fun v => !Q v)).countP P + (l.filter Q).countP P = l.countP P := by
  induction l with
  | nil => rfl
  | cons x xs ih =>
    rw [List.filter_cons, List.filter_cons, List.countP_cons]
    cases hx : Q x
    · simp only [hx, Bool.not_false, if_true, if_false, List.countP_cons]
      cases hP : P x <;> simp [hP] <;> omega
    · simp only [hx, Bool.not_true, if_true, if_false, List.countP_cons]
      cases hP : P x <;> simp [hP] <;> omega

theorem take_countP_succ (P : Nat → Bool) (l : List Nat) (i : Nat) (hi : i < l.length) :
    (l.take (i + 1)).countP P
      = (l.take i).countP P + (if P (l.getD i 0) then 1 else 0) := by
  rw [List.take_succ, List.countP_append, List.getElem?_eq_getElem hi]
  rw [List.getD_eq_getElem l 0 hi]
  cases hP : P l[i] <;> simp [hP, List.countP_cons]

theorem countP_take_le (P : Nat → Bool) (l : List Nat) (i : Nat) :
    (l.take i).countP P ≤ l.countP P := by
  conv_rhs => rw [← List.take_append_drop i l]
  rw [List.countP_append]
  omega

theorem filter_take_getD (P : Nat → Bool) :
    ∀ (l : List Nat) (i : Nat), i < l.length → P (l.getD i 0) = true →
      (l.filter P).getD ((l.take i).countP P) 0 = l.getD i 0
      ∧ (l.take i).countP P < (l.filter P).length := by
  intro l
  induction l with
  | nil => intro i hi; simp at hi
  | cons x xs ih =>
    intro i hi hP
    match i with
    | 0 =>
      rw [List.getD_cons_zero] at hP ⊢
      rw [List.take_zero, List.countP_nil, List.filter_cons, if_pos hP]
      exact ⟨List.getD_cons_zero, by simp⟩
    | i + 1 =>
      rw [List.getD_cons_succ] at hP ⊢
      have hi' : i < xs.length := by simpa using hi
      obtain ⟨ih1, ih2⟩ := ih i hi' hP
      rw [List.take_succ_cons, List.filter_cons, List.countP_cons]
      by_cases hx : P x = true
      · rw [if_pos hx, if_pos hx]
        refine ⟨by rw [List.getD_cons_succ]; exact ih1, ?_⟩
        rw [List.length_cons]
        omega
      · rw [if_neg hx, if_neg hx]
        simp only [Nat.add_zero]
        exact ⟨ih1, ih2⟩

theorem getD_map_lt (l : List Nat) (f : Nat → Nat) (i : Nat) (h : i < l.length) :
    (l.map f).getD i 0 = f (l.getD i 0) := by
  rw [List.getD_eq_getElem _ _ (by simpa using h), List.getD_eq_getElem _ _ h,
    List.getElem_map]

/-! ## Facts about the stable-partition step -/

theorem wm_step_length (cb : Nat) (vs : List Nat) :
    (wm_step cb vs).length = vs.length := by
  unfold wm_step
  rw [List.length_map, List.length_append, ← List.countP_eq_length_filter,
    ← List.countP_eq_length_filter]
  exact countP_not_add _ vs

theorem wm_step_lt (cb : Nat) (vs : List Nat) (v : Nat) (hv : v ∈ wm_step cb vs) :
    v < 2 ^ cb := by
  unfold wm_step at hv
  obtain ⟨u, _, hu⟩ := List.mem_map.mp hv
  subst hu
  exact Nat.mod_lt u (Nat.pos_pow_of_pos cb (by norm_num))

theorem wm_step_countP (cb j : Nat) (vs : List Nat) (hj : j < cb) :
    (wm_step cb vs).countP (fun v => !v.testBit j) = vs.countP (fun v => !v.testBit j) := by
  unfold wm_step
  rw [List.countP_map]
  have hcong : ∀ l : List Nat,
      l.countP ((fun v => !v.testBit j) ∘ (fun v => v % 2 ^ cb))
        = l.countP (fun v => !v.testBit j) := by
    intro l
    apply List.countP_congr
    intro v _
    simp only [Function.comp_apply]
    rw [Nat.testBit_mod_two_pow]
    simp [hj]
  rw [List.countP_append, hcong, hcong]
  exact countP_filter_not_add _ _ vs

theorem wm_step_getD_zero (cb : Nat) (vs : List Nat) (i : Nat) (hi : i < vs.length)
    (hbit : (vs.getD i 0).testBit cb = false) :
    (wm_step cb vs).getD ((vs.take i).countP (fun v => !v.testBit cb)) 0
        = vs.getD i 0 % 2 ^ cb
    ∧ (vs.take i).countP (fun v => !v.testBit cb)
        < vs.countP (fun v => !v.testBit cb) := by
  obtain ⟨h1, h2⟩ := filter_take_getD (fun v => !v.testBit cb) vs i hi
    (by simp only [hbit, Bool.not_false])
  have hlen0 : (vs.filter (fun v => !v.testBit cb)).length
      = vs.countP (fun v => !v.testBit cb) := (List.countP_eq_length_filter _ _).symm
  constructor
  · unfold wm_step
    rw [getD_map_lt _ _ _ (by
      rw [List.length_append]
      omega)]
    rw [List.getD_append _ _ _ _ (by omega), h1]
  · omega

theorem wm_step_getD_one (cb : Nat) (vs : List Nat) (i : Nat) (hi : i < vs.length)
    (hbit : (vs.getD i 0).testBit cb = true) :
    (wm_step cb vs).getD
        (vs.countP (fun v => !v.testBit cb) + (vs.take i).countP (fun v => v.testBit cb)) 0
      = vs.getD i 0 % 2 ^ cb
    ∧ vs.countP (fun v => !v.testBit cb) + (vs.take i).countP (fun v => v.testBit cb)
        < vs.length := by
  obtain ⟨h1, h2⟩ := filter_take_getD (fun v => v.testBit cb) vs i hi hbit
  have hlen0 : (vs.filter (fun v => !v.testBit cb)).length
      = vs.countP (fun v => !v.testBit cb) := (List.countP_eq_length_filter _ _).symm
  have hlen1 : (vs.filter (fun v => v.testBit cb)).length
      = vs.countP (fun v => v.testBit cb) := (List.countP_eq_length_filter _ _).symm
  have hpart := countP_not_add (fun v => v.testBit cb) vs
  constructor
  · unfold wm_step
    rw [getD_map_lt _ _ _ (by
      rw [List.length_append]
      omega)]
    rw [List.getD_append_right _ _ _ _ (by omega)]
    rw [hlen0]
    have hidx : vs.countP (fun v => !v.testBit cb)
          + (vs.take i).countP (fun v => v.testBit cb)
          - vs.countP (fun v => !v.testBit cb)
        = (vs.take i).countP (fun v => v.testBit cb) := by omega
    rw [hidx, h1]
  · omega

/-! ## The panicking rank agrees with the checked rank in bounds -/

theorem rank_eq_try_rank (content : List Nat) (i : Nat) (hi : i < 64 * content.length) :
    (ArrayWithRankSelect101111.ofContent content).rank i
      = (ArrayWithRankSelect101111.ofContent content).try_rank i := by
  have hw : i / 64 < content.length := by omega
  have h32 : 32 * (i / 2048) < content.length := by omega
  have hlen2 : i / 2048 < (build content).2.1.length := by
    rw [build_l2ranks_length, lt_chunks_length_iff (show (0:Nat) < 32 by norm_num)]
    exact h32
  have hget2 : (build content).2.1.get? (i / 2048)
      = some ((build content).2.1.getD (i / 2048) 0) := get?_eq_some_getD _ _ hlen2
  have hgetw : content.get? (i / 64) = some (content.getD (i / 64) 0) :=
    get?_eq_some_getD _ _ hw
  simp only [ArrayWithRankSelect101111.rank, ArrayWithRankSelect101111.try_rank,
    ArrayWithRankSelect101111.ofContent, hget2, hgetw]
  rw [if_pos (by constructor <;> omega)]
  rw [Option.some_inj]
  omega

theorem rank_spec (content : List Nat) (i : Nat) (hi : i < 64 * content.length) :
    (ArrayWithRankSelect101111.ofContent content).rank i = some (rank_naive content i) := by
  rw [rank_eq_try_rank content i hi, try_rank_spec, if_pos hi]

theorem rank0_spec (content : List Nat) (i : Nat) (hi : i < 64 * content.length) :
    (ArrayWithRankSelect101111.ofContent content).rank0 i
      = some (i - rank_naive content i) := by
  rw [ArrayWithRankSelect101111.rank0, rank_spec content i hi]
  rfl

theorem rank_naive_le (ws : List Nat) (i : Nat) : rank_naive ws i ≤ i := by
  have h := List.countP_le_length (l := List.range i) (fun j => get_bit ws j)
  rw [List.length_range] at h
  exact h

/-- Reading the rank of a bit array whose first `vs.length` bits hold bit `w`
of the values of `vs`: the count of set values in the prefix. -/
theorem rank_naive_count (U : List Nat) (vs : List Nat) (w : Nat) :
    ∀ i, i ≤ vs.length →
      (∀ j, j < vs.length → get_bit U j = (vs.getD j 0).testBit w) →
      rank_naive U i = (vs.take i).countP (fun v => v.testBit w) := by
  intro i
  induction i with
  | zero => intro _ _; rfl
  | succ i ih =>
    intro hi hbits
    rw [rank_naive_succ, take_countP_succ _ _ _ (by omega), ih (by omega) hbits,
      hbits i (by omega)]

/-! ## The `LevelBuilder` fold invariant -/

theorem getD_replicate_zero (k m : Nat) : (List.replicate k (0 : Nat)).getD m 0 = 0 := by
  by_cases h : m < k
  · rw [List.getD_eq_getElem _ _ (by simpa using h)]
    simp [List.getElem_replicate]
  · rw [List.getD_eq_default _ _ (by simpa using h)]

theorem get_bit_zeroed (k j : Nat) : get_bit (List.replicate k 0) j = false := by
  unfold get_bit
  rw [getD_replicate_zero]
  exact Nat.zero_testBit _

/-- `LevelBuilder::push` on a value whose extracted bit is set, with the
mask and width fields in their normal forms. -/
theorem push_fields_one (w : Nat) (lb : LevelBuilder) (v : Nat)
    (hbpv : lb.bits_per_value = w)
    (hmask : lb.upper_bit_mask = 2 ^ w) (hbit : v.testBit w = true) :
    lb.push v = { lb with
      upper_bit := set_bit lb.upper_bit lb.upper_index,
      upper_index := lb.upper_index + 1,
      lower_bits := write_bits lb.lower_bits lb.lower_one_index (v % 2 ^ w) w,
      lower_one_index := lb.lower_one_index + w } := by
  have hplow : v &&& (2 ^ w - 1) &&& n_lowest_bits w = v % 2 ^ w := by
    unfold n_lowest_bits
    rw [Nat.and_pow_two_sub_one_eq_mod, Nat.and_pow_two_sub_one_eq_mod,
      Nat.mod_mod_of_dvd v dvd_rfl]
  simp only [LevelBuilder.push, init_successive_bit, init_successive_bits, hmask, hbpv]
  rw [if_pos (show v &&& 2 ^ w ≠ 0 by
    rw [Nat.and_two_pow, hbit]
    simp)]
  rw [hplow]
  simp

/-- `LevelBuilder::push` on a value whose extracted bit is clear. -/
theorem push_fields_zero (w : Nat) (lb : LevelBuilder) (v : Nat)
    (hbpv : lb.bits_per_value = w)
    (hmask : lb.upper_bit_mask = 2 ^ w) (hbit : v.testBit w = false) :
    lb.push v = { lb with
      lower_bits := write_bits lb.lower_bits lb.lower_zero_index (v % 2 ^ w) w,
      upper_index := lb.upper_index + 1,
      lower_zero_index := lb.lower_zero_index + w } := by
  have hplow : v &&& (2 ^ w - 1) &&& n_lowest_bits w = v % 2 ^ w := by
    unfold n_lowest_bits
    rw [Nat.and_pow_two_sub_one_eq_mod, Nat.and_pow_two_sub_one_eq_mod,
      Nat.mod_mod_of_dvd v dvd_rfl]
  simp only [LevelBuilder.push, init_successive_bit, init_successive_bits, hmask, hbpv]
  rw [if_neg (show ¬v &&& 2 ^ w ≠ 0 by
    rw [Nat.and_two_pow, hbit]
    simp)]
  rw [hplow]
  simp

theorem lb_ok_new (w : Nat) (vs : List Nat) :
    lb_ok w vs 0
      (LevelBuilder.new (vs.countP (fun v => !v.testBit w)) vs.length w) := by
  unfold lb_ok LevelBuilder.new with_zeroed_bits
  refine ⟨rfl, ?_, rfl, ?_, ?_, ?_, ?_, ?_, ?_, ?_, ?_, ?_⟩
  · show (1 <<< w : Nat) = 2 ^ w
    rw [Nat.shiftLeft_eq, Nat.one_mul]
  · show (List.replicate ((vs.length + 63) / 64) (0 : Nat)).length = (vs.length + 63) / 64
    rw [List.length_replicate]
  · show (List.replicate ((vs.length * w + 63) / 64) (0 : Nat)).length
      = (vs.length * w + 63) / 64
    rw [List.length_replicate]
  · show (0 : Nat) = w * ((vs.take 0).countP (fun v => !v.testBit w))
    rw [List.take_zero, List.countP_nil, Nat.mul_zero]
  · show vs.countP (fun v => !v.testBit w) * w
      = w * (vs.countP (fun v => !v.testBit w) + (vs.take 0).countP (fun v => v.testBit w))
    rw [List.take_zero, List.countP_nil, Nat.add_zero, Nat.mul_comm]
  · intro j hj; omega
  · intro j _
    exact get_bit_zeroed _ _
  · intro j hj
    rw [List.take_zero, List.countP_nil] at hj
    omega
  · intro j hj
    rw [List.take_zero, List.countP_nil] at hj
    omega
  · intro p _
    exact get_bit_zeroed _ _

/-- One push preserves the `LevelBuilder` invariant. -/
theorem lb_ok_push (w : Nat) (vs : List Nat) (t : Nat) (lb : LevelBuilder)
    (hw : 0 < w) (ht : t < vs.length)
    (hvlt : vs.getD t 0 < 2 ^ (w + 1))
    (hok : lb_ok w vs t lb) :
    lb_ok w vs (t + 1) (lb.push (vs.getD t 0)) := by
  obtain ⟨hbpv, hmask, hui, hublen, hlblen, hzi, hoi, hub_lt, hub_ge, hfrag0, hfrag1, hzero⟩ :=
    hok
  unfold lb_ok
  set z := vs.countP (fun v => !v.testBit w) with hzdef
  set o := vs.countP (fun v => v.testBit w) with hodef
  set zt := (vs.take t).countP (fun v => !v.testBit w) with hztdef
  set ot := (vs.take t).countP (fun v => v.testBit w) with hotdef
  have hts : vs.take (t + 1) = vs.take t ++ [vs.getD t 0] := by
    rw [List.take_succ, List.getElem?_eq_getElem ht, List.getD_eq_getElem _ _ ht]
    rfl
  have hpart : z + o = vs.length := countP_not_add (fun v => v.testBit w) vs
  have hzt_le : zt ≤ z := countP_take_le (fun v => !v.testBit w) vs t
  have hot_le : ot ≤ o := countP_take_le (fun v => v.testBit w) vs t
  have hcap_ub : vs.length ≤ 64 * lb.upper_bit.length := by
    rw [hublen]
    omega
  have hcap_lb : vs.length * w ≤ 64 * lb.lower_bits.length := by
    rw [hlblen]
    omega
  cases hbit : (vs.getD t 0).testBit w
  -- extracted bit is clear: the value goes to the zero cursor
  · rw [push_fields_zero w lb (vs.getD t 0) hbpv hmask hbit]
    have hz1 : (vs.take (t + 1)).countP (fun v => !v.testBit w) = zt + 1 := by
      rw [hts, List.countP_append]
      simp only [List.countP_cons, List.countP_nil, hbit, Bool.not_false, reduceIte]
    have ho1 : (vs.take (t + 1)).countP (fun v => v.testBit w) = ot := by
      rw [hts, List.countP_append]
      simp only [List.countP_cons, List.countP_nil, hbit, Bool.false_eq_true, reduceIte]
      omega
    have hzt_lt : zt < z := by
      have := countP_take_le (fun v => !v.testBit w) vs (t + 1)
      omega
    have hcapw : lb.lower_zero_index + w ≤ 64 * lb.lower_bits.length := by
      rw [hzi]
      have h1 : w * zt + w = w * (zt + 1) := by ring
      have h2 : w * (zt + 1) ≤ w * vs.length :=
        Nat.mul_le_mul_left w (by omega)
      have h3 : w * vs.length = vs.length * w := Nat.mul_comm _ _
      omega
    have hfilter0 : (vs.take (t + 1)).filter (fun v => !v.testBit w)
        = (vs.take t).filter (fun v => !v.testBit w) ++ [vs.getD t 0] := by
      rw [hts, List.filter_append]
      simp only [List.filter_cons, List.filter_nil, hbit, Bool.not_false, reduceIte]
    have hfilter1 : (vs.take (t + 1)).filter (fun v => v.testBit w)
        = (vs.take t).filter (fun v => v.testBit w) := by
      rw [hts, List.filter_append]
      simp only [List.filter_cons, List.filter_nil, hbit, Bool.false_eq_true, reduceIte,
        List.append_nil]
    refine ⟨hbpv, hmask, ?_, hublen, ?_, ?_, ?_, ?_, ?_, ?_, ?_, ?_⟩
    · show lb.upper_index + 1 = t + 1
      rw [hui]
    · show (write_bits lb.lower_bits lb.lower_zero_index (vs.getD t 0 % 2 ^ w) w).length
        = (vs.length * w + 63) / 64
      rw [write_bits_length, hlblen]
    · show lb.lower_zero_index + w = w * ((vs.take (t + 1)).countP (fun v => !v.testBit w))
      rw [hz1, hzi]
      ring
    · show lb.lower_one_index = w * (z + (vs.take (t + 1)).countP (fun v => v.testBit w))
      rw [ho1, hoi]
    · intro j hj
      show get_bit lb.upper_bit j = (vs.getD j 0).testBit w
      by_cases hjt : j = t
      · subst hjt
        rw [hub_ge j le_rfl, hbit]
      · exact hub_lt j (by omega)
    · intro j hj
      show get_bit lb.upper_bit j = false
      exact hub_ge j (by omega)
    · intro j hj
      rw [hz1] at hj
      show get_bits (write_bits lb.lower_bits lb.lower_zero_index (vs.getD t 0 % 2 ^ w) w)
          (j * w) w
        = ((vs.take (t + 1)).filter (fun v => !v.testBit w)).getD j 0 % 2 ^ w
      rw [hfilter0]
      have hlenf : ((vs.take t).filter (fun v => !v.testBit w)).length = zt :=
        (List.countP_eq_length_filter _ _).symm
      by_cases hjz : j < zt
      · -- fragment already written on the zero side: untouched by this write
        have hcong : ∀ k, k < w →
            get_bit (write_bits lb.lower_bits lb.lower_zero_index
              (vs.getD t 0 % 2 ^ w) w) (j * w + k)
              = get_bit lb.lower_bits (j * w + k) := by
          intro k hk
          apply write_bits_get_bit_outside _ _ _ _ _ hcapw
          left
          have h1 : (j + 1) * w ≤ zt * w := Nat.mul_le_mul_right w (by omega)
          have h2 : (j + 1) * w = j * w + w := by ring
          have h3 : zt * w = w * zt := Nat.mul_comm _ _
          rw [hzi]
          omega
        unfold get_bits
        rw [List.map_congr_left (fun k hk => hcong k (List.mem_range.mp hk))]
        rw [List.getD_append _ _ _ _ (by omega)]
        exact hfrag0 j hjz
      · -- j = zt: this is exactly the fragment being written
        have hjz' : j = zt := by omega
        subst hjz'
        have hpos : zt * w = lb.lower_zero_index := by
          rw [hzi]
          ring
        rw [hpos]
        rw [get_bits_of_write _ _ _ _ hcapw (by
          intro k hk
          apply hzero
          left
          constructor
          · rw [hzi] at *
            omega
          · have h1 : w * (zt + 1) ≤ w * z := Nat.mul_le_mul_left w (by omega)
            have h2 : w * (zt + 1) = w * zt + w := by ring
            rw [hzi]
            omega)]
        rw [List.getD_append_right _ _ _ _ (by omega)]
        rw [hlenf, Nat.sub_self, List.getD_cons_zero]
        rw [Nat.mod_mod_of_dvd _ dvd_rfl]
    · intro j hj
      rw [ho1] at hj
      show get_bits (write_bits lb.lower_bits lb.lower_zero_index (vs.getD t 0 % 2 ^ w) w)
          ((z + j) * w) w
        = ((vs.take (t + 1)).filter (fun v => v.testBit w)).getD j 0 % 2 ^ w
      rw [hfilter1]
      have hcong : ∀ k, k < w →
          get_bit (write_bits lb.lower_bits lb.lower_zero_index
            (vs.getD t 0 % 2 ^ w) w) ((z + j) * w + k)
            = get_bit lb.lower_bits ((z + j) * w + k) := by
        intro k hk
        apply write_bits_get_bit_outside _ _ _ _ _ hcapw
        right
        have h1 : (zt + 1) * w ≤ z * w := Nat.mul_le_mul_right w (by omega)
        have h2 : z * w ≤ (z + j) * w := Nat.mul_le_mul_right w (by omega)
        have h3 : (zt + 1) * w = zt * w + w := by ring
        have h4 : zt * w = w * zt := Nat.mul_comm _ _
        rw [hzi]
        omega
      unfold get_bits
      rw [List.map_congr_left (fun k hk => hcong k (List.mem_range.mp hk))]
      exact hfrag1 j hj
    · intro p hp
      rw [hz1, ho1] at hp
      show get_bit (write_bits lb.lower_bits lb.lower_zero_index (vs.getD t 0 % 2 ^ w) w)
          p = false
      have hout : p < lb.lower_zero_index ∨ lb.lower_zero_index + w ≤ p := by
        rcases hp with ⟨hp1, _⟩ | hp2
        · right
          have h1 : w * (zt + 1) = w * zt + w := by ring
          rw [hzi]
          omega
        · right
          have h1 : w * (zt + 1) ≤ w * z := Nat.mul_le_mul_left w (by omega)
          have h2 : w * z ≤ w * (z + ot) := Nat.mul_le_mul_left w (by omega)
          have h3 : w * (zt + 1) = w * zt + w := by ring
          rw [hzi]
          omega
      rw [write_bits_get_bit_outside _ _ _ _ _ hcapw hout]
      apply hzero
      rcases hp with ⟨hp1, hp2⟩ | hp2
      · left
        have h1 : w * (zt + 1) = w * zt + w := by ring
        constructor <;> omega
      · right
        have h1 : w * (z + ot) ≤ w * (z + ot) := le_rfl
        omega
  -- extracted bit is set: the value goes to the one cursor
  · rw [push_fields_one w lb (vs.getD t 0) hbpv hmask hbit]
    have hz1 : (vs.take (t + 1)).countP (fun v => !v.testBit w) = zt := by
      rw [hts, List.countP_append]
      simp only [List.countP_cons, List.countP_nil, hbit, Bool.not_true, Bool.false_eq_true,
        reduceIte]
      omega
    have ho1 : (vs.take (t + 1)).countP (fun v => v.testBit w) = ot + 1 := by
      rw [hts, List.countP_append]
      simp only [List.countP_cons, List.countP_nil, hbit, reduceIte]
    have hot_lt : ot < o := by
      have := countP_take_le (fun v => v.testBit w) vs (t + 1)
      omega
    have hcapw : lb.lower_one_index + w ≤ 64 * lb.lower_bits.length := by
      rw [hoi]
      have h1 : w * (z + ot) + w = w * (z + ot + 1) := by ring
      have h2 : w * (z + ot + 1) ≤ w * vs.length :=
        Nat.mul_le_mul_left w (by omega)
      have h3 : w * vs.length = vs.length * w := Nat.mul_comm _ _
      omega
    have hfilter0 : (vs.take (t + 1)).filter (fun v => !v.testBit w)
        = (vs.take t).filter (fun v => !v.testBit w) := by
      rw [hts, List.filter_append]
      simp only [List.filter_cons, List.filter_nil, hbit, Bool.not_true, Bool.false_eq_true,
        reduceIte, List.append_nil]
    have hfilter1 : (vs.take (t + 1)).filter (fun v => v.testBit w)
        = (vs.take t).filter (fun v => v.testBit w) ++ [vs.getD t 0] := by
      rw [hts, List.filter_append]
      simp only [List.filter_cons, List.filter_nil, hbit, reduceIte]
    refine ⟨hbpv, hmask, ?_, ?_, ?_, ?_, ?_, ?_, ?_, ?_, ?_, ?_⟩
    · show lb.upper_index + 1 = t + 1
      rw [hui]
    · show (set_bit lb.upper_bit lb.upper_index).length = (vs.length + 63) / 64
      rw [set_bit_length, hublen]
    · show (write_bits lb.lower_bits lb.lower_one_index (vs.getD t 0 % 2 ^ w) w).length
        = (vs.length * w + 63) / 64
      rw [write_bits_length, hlblen]
    · show lb.lower_zero_index = w * ((vs.take (t + 1)).countP (fun v => !v.testBit w))
      rw [hz1, hzi]
    · show lb.lower_one_index + w
        = w * (z + (vs.take (t + 1)).countP (fun v => v.testBit w))
      rw [ho1, hoi]
      ring
    · intro j hj
      show get_bit (set_bit lb.upper_bit lb.upper_index) j = (vs.getD j 0).testBit w
      rw [hui, get_bit_set_bit _ _ _ (by omega)]
      by_cases hjt : j = t
      · subst hjt
        rw [hub_ge j le_rfl, hbit]
        simp
      · rw [hub_lt j (by omega)]
        simp [hjt]
    · intro j hj
      show get_bit (set_bit lb.upper_bit lb.upper_index) j = false
      rw [hui, get_bit_set_bit _ _ _ (by omega)]
      rw [hub_ge j (by omega)]
      simp
      omega
    · intro j hj
      rw [hz1] at hj
      show get_bits (write_bits lb.lower_bits lb.lower_one_index (vs.getD t 0 % 2 ^ w) w)
          (j * w) w
        = ((vs.take (t + 1)).filter (fun v => !v.testBit w)).getD j 0 % 2 ^ w
      rw [hfilter0]
      have hcong : ∀ k, k < w →
          get_bit (write_bits lb.lower_bits lb.lower_one_index
            (vs.getD t 0 % 2 ^ w) w) (j * w + k)
            = get_bit lb.lower_bits (j * w + k) := by
        intro k hk
        apply write_bits_get_bit_outside _ _ _ _ _ hcapw
        left
        have h1 : (j + 1) * w ≤ zt * w := Nat.mul_le_mul_right w (by omega)
        have h2 : (j + 1) * w = j * w + w := by ring
        have h3 : zt * w ≤ (z + ot) * w := Nat.mul_le_mul_right w (by omega)
        have h4 : (z + ot) * w = w * (z + ot) := Nat.mul_comm _ _
        rw [hoi]
        omega
      unfold get_bits
      rw [List.map_congr_left (fun k hk => hcong k (List.mem_range.mp hk))]
      exact hfrag0 j hj
    · intro j hj
      rw [ho1] at hj
      show get_bits (write_bits lb.lower_bits lb.lower_one_index (vs.getD t 0 % 2 ^ w) w)
          ((z + j) * w) w
        = ((vs.take (t + 1)).filter (fun v => v.testBit w)).getD j 0 % 2 ^ w
      rw [hfilter1]
      have hlenf : ((vs.take t).filter (fun v => v.testBit w)).length = ot :=
        (List.countP_eq_length_filter _ _).symm
      by_cases hjo : j < ot
      · have hcong : ∀ k, k < w →
            get_bit (write_bits lb.lower_bits lb.lower_one_index
              (vs.getD t 0 % 2 ^ w) w) ((z + j) * w + k)
              = get_bit lb.lower_bits ((z + j) * w + k) := by
          intro k hk
          apply write_bits_get_bit_outside _ _ _ _ _ hcapw
          left
          have h1 : (z + j + 1) * w ≤ (z + ot) * w := Nat.mul_le_mul_right w (by omega)
          have h2 : (z + j + 1) * w = (z + j) * w + w := by ring
          have h3 : (z + ot) * w = w * (z + ot) := Nat.mul_comm _ _
          rw [hoi]
          omega
        unfold get_bits
        rw [List.map_congr_left (fun k hk => hcong k (List.mem_range.mp hk))]
        rw [List.getD_append _ _ _ _ (by omega)]
        exact hfrag1 j hjo
      · have hjo' : j = ot := by omega
        subst hjo'
        have hpos : (z + ot) * w = lb.lower_one_index := by
          rw [hoi]
          ring
        rw [hpos]
        rw [get_bits_of_write _ _ _ _ hcapw (by
          intro k hk
          apply hzero
          right
          rw [hoi] at *
          omega)]
        rw [List.getD_append_right _ _ _ _ (by omega)]
        rw [hlenf, Nat.sub_self, List.getD_cons_zero]
        rw [Nat.mod_mod_of_dvd _ dvd_rfl]
    · intro p hp
      rw [hz1, ho1] at hp
      show get_bit (write_bits lb.lower_bits lb.lower_one_index (vs.getD t 0 % 2 ^ w) w)
          p = false
      have hout : p < lb.lower_one_index ∨ lb.lower_one_index + w ≤ p := by
        rcases hp with ⟨_, hp2⟩ | hp2
        · left
          have h1 : w * z ≤ w * (z + ot) := Nat.mul_le_mul_left w (by omega)
          rw [hoi]
          omega
        · right
          have h1 : w * (z + (ot + 1)) = w * (z + ot) + w := by ring
          rw [hoi]
          omega
      rw [write_bits_get_bit_outside _ _ _ _ _ hcapw hout]
      apply hzero
      rcases hp with ⟨hp1, hp2⟩ | hp2
      · left
        exact ⟨hp1, hp2⟩
      · right
        have h1 : w * (z + (ot + 1)) = w * (z + ot) + w := by ring
        omega

theorem getD_mem (l : List Nat) (t : Nat) (ht : t < l.length) : l.getD t 0 ∈ l := by
  rw [List.getD_eq_getElem _ _ ht]
  exact List.getElem_mem ht

theorem lb_ok_fold_aux (w : Nat) (vs : List Nat) (hw : 0 < w)
    (hvals : ∀ v ∈ vs, v < 2 ^ (w + 1)) :
    ∀ (s : List Nat) (t : Nat) (lb : LevelBuilder), s = vs.drop t → t ≤ vs.length →
      lb_ok w vs t lb →
      lb_ok w vs vs.length (s.foldl LevelBuilder.push lb) := by
  intro s
  induction s with
  | nil =>
    intro t lb hs hle hok
    have hlen := congrArg List.length hs
    rw [List.length_nil, List.length_drop] at hlen
    have ht : t = vs.length := by omega
    rw [List.foldl_nil]
    rw [← ht]
    exact hok
  | cons x xs ih =>
    intro t lb hs hle hok
    have hlen := congrArg List.length hs
    rw [List.length_cons, List.length_drop] at hlen
    have ht : t < vs.length := by omega
    have hx : x = vs.getD t 0 := by
      have h0 : (vs.drop t).getD 0 0 = vs.getD t 0 := by
        rw [List.getD_eq_getElem _ _ (by rw [List.length_drop]; omega),
          List.getD_eq_getElem _ _ ht]
        rw [List.getElem_drop]
        simp
      rw [← hs] at h0
      exact h0
    have hxs : xs = vs.drop (t + 1) := by
      have h1 : vs.drop (t + 1) = (vs.drop t).drop 1 := by
        rw [List.drop_drop]
      rw [h1, ← hs, List.drop_one, List.tail_cons]
    rw [List.foldl_cons, hx]
    exact ih (t + 1) _ hxs (by omega)
      (lb_ok_push w vs t lb hw ht (hvals _ (getD_mem vs t ht)) hok)

theorem lb_ok_fold (w : Nat) (vs : List Nat) (hw : 0 < w)
    (hvals : ∀ v ∈ vs, v < 2 ^ (w + 1)) :
    lb_ok w vs vs.length
      (vs.foldl LevelBuilder.push
        (LevelBuilder.new (vs.countP (fun v => !v.testBit w)) vs.length w)) :=
  lb_ok_fold_aux w vs hw hvals vs 0 _ (List.drop_zero vs).symm (Nat.zero_le _)
    (lb_ok_new w vs)

/-- The finished builder's upper-bit array realizes bit `w` of the pushed
values, and its lower-bits array realizes the stable partition as `w`-bit
fragments (all bits past the data being zero). -/
theorem lb_run_spec (w : Nat) (vs : List Nat) (hw : 0 < w)
    (hvals : ∀ v ∈ vs, v < 2 ^ (w + 1)) :
    (∀ j, j < vs.length →
      get_bit (vs.foldl LevelBuilder.push
        (LevelBuilder.new (vs.countP (fun v => !v.testBit w)) vs.length w)).upper_bit j
        = (vs.getD j 0).testBit w)
    ∧ (∀ j, vs.length ≤ j →
      get_bit (vs.foldl LevelBuilder.push
        (LevelBuilder.new (vs.countP (fun v => !v.testBit w)) vs.length w)).upper_bit j
        = false)
    ∧ (vs.foldl LevelBuilder.push
        (LevelBuilder.new (vs.countP (fun v => !v.testBit w)) vs.length w)).upper_bit.length
      = (vs.length + 63) / 64
    ∧ (∀ j, j < vs.length →
      get_fragment (vs.foldl LevelBuilder.push
        (LevelBuilder.new (vs.countP (fun v => !v.testBit w)) vs.length w)).lower_bits j w
        = (wm_step w vs).getD j 0)
    ∧ (∀ p, vs.length * w ≤ p →
      get_bit (vs.foldl LevelBuilder.push
        (LevelBuilder.new (vs.countP (fun v => !v.testBit w)) vs.length w)).lower_bits p
        = false)
    ∧ (vs.foldl LevelBuilder.push
        (LevelBuilder.new (vs.countP (fun v => !v.testBit w)) vs.length w)).lower_bits.length
      = (vs.length * w + 63) / 64 := by
  obtain ⟨hbpv, hmask, hui, hublen, hlblen, hzi, hoi, hub_lt, hub_ge, hfrag0, hfrag1, hzero⟩ :=
    lb_ok_fold w vs hw hvals
  rw [List.take_length] at hzi hoi hfrag0 hfrag1 hzero
  have hpart : vs.countP (fun v => !v.testBit w) + vs.countP (fun v => v.testBit w)
      = vs.length := countP_not_add (fun v => v.testBit w) vs
  have hlen0 : (vs.filter (fun v => !v.testBit w)).length
      = vs.countP (fun v => !v.testBit w) := (List.countP_eq_length_filter _ _).symm
  have hlen1 : (vs.filter (fun v => v.testBit w)).length
      = vs.countP (fun v => v.testBit w) := (List.countP_eq_length_filter _ _).symm
  refine ⟨hub_lt, hub_ge, hublen, ?_, ?_, hlblen⟩
  · intro j hj
    unfold get_fragment
    by_cases hjz : j < vs.countP (fun v => !v.testBit w)
    · rw [hfrag0 j hjz]
      unfold wm_step
      rw [getD_map_lt _ _ _ (by rw [List.length_append]; omega)]
      rw [List.getD_append _ _ _ _ (by omega)]
    · have hj1 : j - vs.countP (fun v => !v.testBit w)
          < vs.countP (fun v => v.testBit w) := by omega
      have hpos : (vs.countP (fun v => !v.testBit w)
            + (j - vs.countP (fun v => !v.testBit w))) * w = j * w := by
        have : vs.countP (fun v => !v.testBit w)
            + (j - vs.countP (fun v => !v.testBit w)) = j := by omega
        rw [this]
      rw [← hpos, hfrag1 _ hj1]
      unfold wm_step
      rw [getD_map_lt _ _ _ (by rw [List.length_append]; omega)]
      rw [List.getD_append_right _ _ _ _ (by omega)]
      rw [hlen0]
  · intro p hp
    apply hzero
    right
    have h1 : w * (vs.countP (fun v => !v.testBit w) + vs.countP (fun v => v.testBit w))
        = w * vs.length := by rw [hpart]
    have h2 : w * vs.length = vs.length * w := Nat.mul_comm _ _
    omega

/-- Length of the level list produced by the `from_fn` while-loop model. -/
theorem wm_build_rest_length (T : List Nat) (N : Nat) :
    ∀ (cb : Nat) (rest : List Nat), (wm_build_rest T N (cb + 1) rest).length = cb + 1 := by
  intro cb
  induction cb with
  | zero => intro rest; rfl
  | succ c ih =>
    intro rest
    show (wm_build_rest T N (c + 1 + 1) rest).length = c + 2
    simp only [wm_build_rest, List.length_cons]
    rw [ih]

theorem testBit_true_decomp (v L : Nat) (h : v < 2 ^ (L + 1)) (hb : v.testBit L = true) :
    v = 2 ^ L + v % 2 ^ L := by
  have hdm := Nat.div_add_mod v (2 ^ L)
  have hlt : v / 2 ^ L < 2 := by
    apply Nat.div_lt_of_lt_mul
    have hp : (2 : Nat) ^ (L + 1) = 2 ^ L * 2 := by ring
    omega
  rw [Nat.testBit_to_div_mod] at hb
  have h1 : v / 2 ^ L % 2 = 1 := of_decide_eq_true hb
  have h2 : v / 2 ^ L = 1 := by
    generalize hu : v / 2 ^ L = u at h1 hlt
    omega
  rw [h2, Nat.mul_one] at hdm
  omega

theorem testBit_false_lt (v L : Nat) (h : v < 2 ^ (L + 1)) (hb : v.testBit L = false) :
    v < 2 ^ L := by
  have hdm := Nat.div_add_mod v (2 ^ L)
  have hlt : v / 2 ^ L < 2 := by
    apply Nat.div_lt_of_lt_mul
    have hp : (2 : Nat) ^ (L + 1) = 2 ^ L * 2 := by ring
    omega
  rw [Nat.testBit_to_div_mod] at hb
  have h1 : ¬(v / 2 ^ L % 2 = 1) := of_decide_eq_false hb
  have h2 : v / 2 ^ L = 0 := by
    generalize hu : v / 2 ^ L = u at h1 hlt
    omega
  rw [h2, Nat.mul_zero] at hdm
  have hm : v % 2 ^ L < 2 ^ L := Nat.mod_lt _ (Nat.pos_pow_of_pos _ (by norm_num))
  omega

theorem shl_one_or_one (r : Nat) : (r <<< 1) ||| 1 = 2 * r + 1 := by
  rw [Nat.lor_comm]
  rw [or_shl_eq 1 r 1 (by norm_num)]
  norm_num

theorem shl_one (r : Nat) : r <<< 1 = 2 * r := by
  rw [Nat.shiftLeft_eq]
  ring

/-- The descent of `WaveletMatrix::get` through a level list that realizes a
value list: the fold succeeds (no `rank` panic) and reassembles the value at
the tracked position, bit by bit. -/
theorem wm_descent :
    ∀ (ls : List WaveletMatrixLevel) (vs : List Nat), levels_realize ls vs →
      ∀ i, i < vs.length → ∀ r0 : Nat,
      ∃ ifin,
        (List.foldlM (fun (acc : Nat × Nat) (level : WaveletMatrixLevel) =>
            if get_bit level.content.content acc.2 then
              (level.content.rank acc.2).map (fun r =>
                ((acc.1 <<< 1) ||| 1, r + level.number_of_zeros))
            else
              (level.content.rank0 acc.2).map (fun r => (acc.1 <<< 1, r)))
          (r0, i) ls : Option (Nat × Nat))
        = some (r0 * 2 ^ ls.length + vs.getD i 0, ifin) := by
  intro ls
  induction ls with
  | nil =>
    intro vs hreal i hi r0
    refine ⟨i, ?_⟩
    rw [List.foldlM_nil]
    have hv : vs.getD i 0 = 0 := hreal _ (getD_mem vs i hi)
    rw [hv]
    show some (r0, i) = some (r0 * 2 ^ ([] : List WaveletMatrixLevel).length + 0, i)
    rw [List.length_nil, pow_zero, Nat.mul_one, Nat.add_zero]
  | cons l ls ih =>
    intro vs hreal i hi r0
    obtain ⟨hbits, hbeyond, hdir, hz, hvlt, hcap, hrec⟩ := hreal
    have hvlti : vs.getD i 0 < 2 ^ (ls.length + 1) := hvlt _ (getD_mem vs i hi)
    have hUcap : i < 64 * l.content.content.length := by omega
    rw [List.foldlM_cons]
    cases hbit : (vs.getD i 0).testBit ls.length
    -- extracted bit clear: descend through rank0
    · have hbitval : get_bit l.content.content i = false := by rw [hbits i hi, hbit]
      have hrank : l.content.rank0 i
          = some (i - (vs.take i).countP (fun v => v.testBit ls.length)) := by
        conv_lhs => rw [hdir]
        rw [rank0_spec _ _ hUcap]
        rw [rank_naive_count l.content.content vs ls.length i (Nat.le_of_lt hi) hbits]
      have hcnt0 : i - (vs.take i).countP (fun v => v.testBit ls.length)
          = (vs.take i).countP (fun v => !v.testBit ls.length) := by
        have hp := countP_not_add (fun v => v.testBit ls.length) (vs.take i)
        have hlt : (vs.take i).length = i := by
          rw [List.length_take]
          omega
        omega
      obtain ⟨hmap, hblt⟩ := wm_step_getD_zero ls.length vs i hi hbit
      have hzlen : vs.countP (fun v => !v.testBit ls.length) ≤ vs.length :=
        List.countP_le_length _
      obtain ⟨if2, hIH⟩ := ih (wm_step ls.length vs) hrec
        ((vs.take i).countP (fun v => !v.testBit ls.length))
        (by rw [wm_step_length]; omega) (r0 <<< 1)
      refine ⟨if2, ?_⟩
      simp only [hbitval, Bool.false_eq_true, reduceIte, hrank, Option.map_some', hcnt0,
        Option.bind_eq_bind, Option.some_bind]
      rw [hIH, hmap]
      have hvlt' : vs.getD i 0 < 2 ^ ls.length := testBit_false_lt _ _ hvlti hbit
      have harith : r0 <<< 1 * 2 ^ ls.length + vs.getD i 0 % 2 ^ ls.length
          = r0 * 2 ^ (l :: ls).length + vs.getD i 0 := by
        rw [Nat.mod_eq_of_lt hvlt', shl_one, List.length_cons, pow_succ]
        ring
      rw [harith]
    -- extracted bit set: descend through rank
    · have hbitval : get_bit l.content.content i = true := by rw [hbits i hi, hbit]
      have hrank : l.content.rank i
          = some ((vs.take i).countP (fun v => v.testBit ls.length)) := by
        conv_lhs => rw [hdir]
        rw [rank_spec _ _ hUcap]
        rw [rank_naive_count l.content.content vs ls.length i (Nat.le_of_lt hi) hbits]
      cases ls with
      | nil =>
        refine ⟨(vs.take i).countP (fun v => v.testBit ([] : List WaveletMatrixLevel).length)
          + l.number_of_zeros, ?_⟩
        simp only [hbitval, reduceIte, hrank, Option.map_some', Option.bind_eq_bind,
          Option.some_bind, List.foldlM_nil, Option.pure_def]
        have hv1 : vs.getD i 0 = 1 := by
          have hlt2 : vs.getD i 0 < 2 := by
            have := hvlti
            simpa using this
          have hb := hbit
          rw [Nat.testBit_to_div_mod] at hb
          have h1 : vs.getD i 0 / 2 ^ ([] : List WaveletMatrixLevel).length % 2 = 1 :=
            of_decide_eq_true hb
          simp only [List.length_nil, pow_zero, Nat.div_one] at h1
          omega
        rw [hv1]
        have harith : (r0 <<< 1) ||| 1
            = r0 * 2 ^ (l :: ([] : List WaveletMatrixLevel)).length + 1 := by
          rw [shl_one_or_one, List.length_cons, List.length_nil]
          ring
        rw [harith]
      | cons l2 ls2 =>
        have hzeq : l.number_of_zeros
            = vs.countP (fun v => !v.testBit (l2 :: ls2).length) := hz (by simp)
        obtain ⟨hmap, hblt⟩ := wm_step_getD_one (l2 :: ls2).length vs i hi hbit
        obtain ⟨if2, hIH⟩ := ih (wm_step (l2 :: ls2).length vs) hrec
          (vs.countP (fun v => !v.testBit (l2 :: ls2).length)
            + (vs.take i).countP (fun v => v.testBit (l2 :: ls2).length))
          (by rw [wm_step_length]; omega) ((r0 <<< 1) ||| 1)
        refine ⟨if2, ?_⟩
        simp only [hbitval, reduceIte, hrank, Option.map_some', Option.bind_eq_bind,
          Option.some_bind, hzeq]
        have hcomm : (vs.take i).countP (fun v => v.testBit (l2 :: ls2).length)
              + vs.countP (fun v => !v.testBit (l2 :: ls2).length)
            = vs.countP (fun v => !v.testBit (l2 :: ls2).length)
              + (vs.take i).countP (fun v => v.testBit (l2 :: ls2).length) :=
          Nat.add_comm _ _
        rw [hcomm, hIH, hmap]
        have hdecomp := testBit_true_decomp _ _ hvlti hbit
        have harith : ((r0 <<< 1) ||| 1) * 2 ^ (l2 :: ls2).length
              + vs.getD i 0 % 2 ^ (l2 :: ls2).length
            = r0 * 2 ^ (l :: l2 :: ls2).length + vs.getD i 0 := by
          rw [shl_one_or_one]
          conv_rhs => rw [hdecomp]
          simp only [List.length_cons]
          ring
        rw [harith]

theorem get_fragment_one (rest : List Nat) (j : Nat) :
    get_fragment rest j 1 = if get_bit rest j then 1 else 0 := by
  unfold get_fragment get_bits
  rw [List.range_succ, List.range_zero, List.nil_append]
  simp [ofBits, Nat.mul_one]

/-- The while-loop of `from_fn` produces levels that realize the value list,
given a `rest` buffer that holds the values as fragments. -/
theorem wm_build_rest_realizes (T : List Nat) (N : Nat) :
    ∀ (c : Nat) (rest vs : List Nat),
      vs.length = N →
      (∀ v ∈ vs, v < 2 ^ (c + 1)) →
      (∀ j, j < c + 1 → vs.countP (fun v => !v.testBit j) = wm_number_of_zeros T j) →
      (∀ j, j < N → get_fragment rest j (c + 1) = vs.getD j 0) →
      (∀ p, N * (c + 1) ≤ p → get_bit rest p = false) →
      N * (c + 1) ≤ 64 * rest.length →
      levels_realize (wm_build_rest T N (c + 1) rest) vs := by
  intro c
  induction c with
  | zero =>
    intro rest vs hlen hvals hcount hfrag hbey hcap
    show levels_realize
      [⟨ArrayWithRankSelect101111.ofContent rest, wm_number_of_zeros T 0⟩] vs
    refine ⟨?_, ?_, rfl, ?_, ?_, ?_, ?_⟩
    · intro j hj
      show get_bit rest j = (vs.getD j 0).testBit 0
      rw [← hfrag j (by omega), get_fragment_one]
      cases hb : get_bit rest j
      · simp
      · simp
    · intro j hj
      show get_bit rest j = false
      exact hbey j (by omega)
    · intro hne
      exact absurd rfl hne
    · intro v hv
      show v < 2 ^ (0 + 1)
      exact hvals v hv
    · show vs.length ≤ 64 * rest.length
      omega
    · intro v hv
      have := wm_step_lt 0 vs v hv
      omega
  | succ c ih =>
    intro rest vs hlen hvals hcount hfrag hbey hcap
    have hmapvs : (List.range N).map (fun j => get_bits rest (j * (c + 2)) (c + 2)) = vs := by
      apply List.ext_getElem
      · rw [List.length_map, List.length_range, hlen]
      · intro n h1 h2
        rw [List.getElem_map, List.getElem_range]
        have hfn := hfrag n (by
          rw [List.length_map, List.length_range] at h1
          exact h1)
        unfold get_fragment at hfn
        rw [List.getD_eq_getElem _ _ h2] at hfn
        exact hfn
    have hlb : vs.foldl LevelBuilder.push
          (LevelBuilder.new (vs.countP (fun v => !v.testBit (c + 1))) vs.length (c + 1))
        = (List.range N).foldl
          (fun l j => l.push (get_bits rest (j * (c + 2)) (c + 2)))
          (LevelBuilder.new (wm_number_of_zeros T (c + 1)) N (c + 1)) := by
      rw [hcount (c + 1) (by omega), hlen]
      conv_lhs => rw [← hmapvs]
      rw [List.foldl_map]
    obtain ⟨hrs1, hrs2, hrs3, hrs4, hrs5, hrs6⟩ :=
      lb_run_spec (c + 1) vs (by omega) hvals
    rw [hlb] at hrs1 hrs2 hrs3 hrs4 hrs5 hrs6
    rw [hlen] at hrs5 hrs6
    have hlslen : ∀ lbits : List Nat, (wm_build_rest T N (c + 1) lbits).length = c + 1 :=
      fun lbits => wm_build_rest_length T N c lbits
    show levels_realize (wm_build_rest T N (c + 1 + 1) rest) vs
    simp only [wm_build_rest]
    refine ⟨?_, ?_, rfl, ?_, ?_, ?_, ?_⟩
    · intro j hj
      rw [hlslen]
      exact hrs1 j hj
    · intro j hj
      exact hrs2 j hj
    · intro hne
      rw [hlslen]
      exact (hcount (c + 1) (by omega)).symm
    · intro v hv
      rw [hlslen]
      exact hvals v hv
    · have hineq : vs.length ≤ 64 * ((vs.length + 63) / 64) := by omega
      rw [← hrs3] at hineq
      exact hineq
    · rw [hlslen]
      apply ih
      · rw [wm_step_length, hlen]
      · intro v hv
        exact wm_step_lt _ _ _ hv
      · intro j hj
        rw [wm_step_countP (c + 1) j vs (by omega)]
        exact hcount j (by omega)
      · intro j hj
        apply hrs4
        omega
      · intro p hp
        exact hrs5 p hp
      · rw [hrs6]
        omega

theorem with_zeroed_bits_length (n : Nat) : (with_zeroed_bits n).length = (n + 63) / 64 := by
  unfold with_zeroed_bits
  rw [List.length_replicate]

theorem get_bit_wzb (n j : Nat) : get_bit (with_zeroed_bits n) j = false :=
  get_bit_zeroed _ _

theorem init_bit_get_bit (ws : List Nat) (s j : Nat) (b : Bool) (hcap : s < 64 * ws.length) :
    (get_bit (init_bit ws s b) j = true ↔ (get_bit ws j = true ∨ (j = s ∧ b = true))) := by
  unfold init_bit
  cases b
  · simp
  · simp only [reduceIte]
    rw [get_bit_set_bit _ _ _ hcap]
    simp

theorem init_bit_fold_length (xs : List Nat) :
    ∀ (s : Nat) (ws : List Nat),
      ((xs.enumFrom s).foldl (fun level ie => init_bit level ie.1 (ie.2 != 0)) ws).length
        = ws.length := by
  induction xs with
  | nil => intro s ws; rfl
  | cons x xs ih =>
    intro s ws
    rw [show (x :: xs).enumFrom s = (s, x) :: xs.enumFrom (s + 1) from rfl, List.foldl_cons]
    rw [ih (s + 1) _]
    show (init_bit ws s (x != 0)).length = ws.length
    unfold init_bit
    cases hx : (x != 0 : Bool)
    · simp only [Bool.false_eq_true, reduceIte]
    · simp only [reduceIte]
      exact set_bit_length ws s

/-- The bit-initialisation loop of the one-level `from_fn` path: bits covered
by the enumerated values reflect `value != 0`, other bits are untouched. -/
theorem init_bit_fold_get_bit (xs : List Nat) :
    ∀ (s : Nat) (ws : List Nat), s + xs.length ≤ 64 * ws.length → ∀ j,
      (get_bit ((xs.enumFrom s).foldl
          (fun level ie => init_bit level ie.1 (ie.2 != 0)) ws) j = true
        ↔ (get_bit ws j = true
          ∨ (s ≤ j ∧ j < s + xs.length ∧ xs.getD (j - s) 0 ≠ 0))) := by
  induction xs with
  | nil =>
    intro s ws hcap j
    constructor
    · intro h
      exact Or.inl h
    · rintro (h | ⟨h1, h2, _⟩)
      · exact h
      · exfalso
        simp only [List.length_nil] at h2
        omega
  | cons x xs ih =>
    intro s ws hcap j
    rw [show (x :: xs).enumFrom s = (s, x) :: xs.enumFrom (s + 1) from rfl, List.foldl_cons]
    have hlen1 : (init_bit ws s (x != 0)).length = ws.length := by
      unfold init_bit
      cases hx : (x != 0 : Bool)
      · simp only [Bool.false_eq_true, reduceIte]
      · simp only [reduceIte]
        exact set_bit_length ws s
    rw [ih (s + 1) _ (by
      rw [hlen1]
      simp only [List.length_cons] at hcap
      omega) j]
    rw [init_bit_get_bit ws s j (x != 0) (by
      simp only [List.length_cons] at hcap
      omega)]
    simp only [List.length_cons]
    constructor
    · rintro ((h | ⟨hjs, hxb⟩) | ⟨h1, h2, h3⟩)
      · exact Or.inl h
      · subst hjs
        refine Or.inr ⟨le_rfl, by omega, ?_⟩
        rw [Nat.sub_self, List.getD_cons_zero]
        intro hx0
        rw [hx0] at hxb
        simp at hxb
      · refine Or.inr ⟨by omega, by omega, ?_⟩
        have hd : j - s = (j - (s + 1)) + 1 := by omega
        rw [hd, List.getD_cons_succ]
        exact h3
    · rintro (h | ⟨h1, h2, h3⟩)
      · exact Or.inl (Or.inl h)
      · by_cases hjs : j = s
        · subst hjs
          refine Or.inl (Or.inr ⟨rfl, ?_⟩)
          rw [Nat.sub_self, List.getD_cons_zero] at h3
          exact bne_iff_ne.mpr h3
        · refine Or.inr ⟨by omega, by omega, ?_⟩
          have hd : j - s = (j - (s + 1)) + 1 := by omega
          rw [hd, List.getD_cons_succ] at h3
          exact h3

/-- `from_fn` on an unsupported width. -/
theorem wm_from_fn_bad (T : List Nat) (N b : Nat) (hb : ¬(0 < b ∧ b ≤ 64)) :
    wm_from_fn T N b = none := by
  unfold wm_from_fn
  rw [if_pos hb]

/-- `from_fn` at width 1 (the special path of lines 104-111). -/
theorem wm_from_fn_one (T : List Nat) (N : Nat) :
    wm_from_fn T N 1 = some ⟨[⟨ArrayWithRankSelect101111.ofContent
        ((T.enumFrom 0).foldl (fun level ie => init_bit level ie.1 (ie.2 != 0))
          (with_zeroed_bits N)), N⟩], N⟩ := by
  unfold wm_from_fn
  rw [if_neg (not_not_intro ⟨by omega, by omega⟩), if_pos rfl]
  rfl

/-- `from_fn` at width ≥ 2 (the general path). -/
theorem wm_from_fn_ge2 (T : List Nat) (N c : Nat) (h64 : c + 2 ≤ 64) :
    wm_from_fn T N (c + 2) = some ⟨⟨ArrayWithRankSelect101111.ofContent
        (T.foldl LevelBuilder.push
          (LevelBuilder.new (wm_number_of_zeros T (c + 1)) N (c + 1))).upper_bit,
        wm_number_of_zeros T (c + 1)⟩
      :: wm_build_rest T N (c + 1)
        (T.foldl LevelBuilder.push
          (LevelBuilder.new (wm_number_of_zeros T (c + 1)) N (c + 1))).lower_bits,
      N⟩ := by
  unfold wm_from_fn
  rw [if_neg (not_not_intro ⟨by omega, h64⟩), if_neg (by omega : ¬(c + 2 = 1))]
  rfl

/-- The wavelet matrix built by `from_fn` realizes the input symbol list. -/
theorem wm_from_fn_realizes (T : List Nat) (b : Nat) (hb1 : 1 ≤ b) (hb64 : b ≤ 64)
    (hT : ∀ v ∈ T, v < 2 ^ b) :
    ∃ wm, wm_from_fn T T.length b = some wm ∧ wm.len = T.length
      ∧ levels_realize wm.levels T := by
  match b, hb1 with
  | 1, _ =>
    refine ⟨_, wm_from_fn_one T T.length, rfl, ?_⟩
    have hcap0 : 0 + T.length ≤ 64 * (with_zeroed_bits T.length).length := by
      rw [with_zeroed_bits_length]
      omega
    refine ⟨?_, ?_, rfl, ?_, ?_, ?_, ?_⟩
    · intro j hj
      have hiff := init_bit_fold_get_bit T 0 (with_zeroed_bits T.length) hcap0 j
      rw [get_bit_wzb] at hiff
      have hv2 : T.getD j 0 < 2 := by
        have := hT _ (getD_mem T j hj)
        simpa using this
      show get_bit ((T.enumFrom 0).foldl (fun level ie => init_bit level ie.1 (ie.2 != 0))
          (with_zeroed_bits T.length)) j = (T.getD j 0).testBit 0
      rw [Bool.eq_iff_iff, hiff]
      constructor
      · rintro (h | ⟨_, _, h3⟩)
        · exact absurd h (by simp)
        · have hone : T.getD j 0 = 1 := by
            rw [Nat.sub_zero] at h3
            omega
          rw [hone]
          decide
      · intro h
        refine Or.inr ⟨by omega, by omega, ?_⟩
        rw [Nat.sub_zero]
        intro h0
        rw [h0] at h
        rw [Nat.zero_testBit] at h
        cases h
    · intro j hj
      have hiff := init_bit_fold_get_bit T 0 (with_zeroed_bits T.length) hcap0 j
      rw [get_bit_wzb] at hiff
      show get_bit ((T.enumFrom 0).foldl (fun level ie => init_bit level ie.1 (ie.2 != 0))
          (with_zeroed_bits T.length)) j = false
      cases hb : get_bit ((T.enumFrom 0).foldl
          (fun level ie => init_bit level ie.1 (ie.2 != 0)) (with_zeroed_bits T.length)) j
      · rfl
      · exfalso
        rcases hiff.mp hb with h | ⟨_, h2, _⟩
        · cases h
        · omega
    · intro hne
      exact absurd rfl hne
    · intro v hv
      have := hT v hv
      simpa using this
    · have hfl : ((T.enumFrom 0).foldl (fun level ie => init_bit level ie.1 (ie.2 != 0))
          (with_zeroed_bits T.length)).length = (with_zeroed_bits T.length).length :=
        init_bit_fold_length T 0 (with_zeroed_bits T.length)
      have hineq : T.length ≤ 64 * (with_zeroed_bits T.length).length := by
        rw [with_zeroed_bits_length]
        omega
      rw [← hfl] at hineq
      exact hineq
    · intro v hv
      have := wm_step_lt 0 T v hv
      omega
  | (c + 2), _ =>
    obtain ⟨hrs1, hrs2, hrs3, hrs4, hrs5, hrs6⟩ :=
      lb_run_spec (c + 1) T (by omega) (fun v hv => hT v hv)
    have hwnz : T.countP (fun v => !v.testBit (c + 1)) = wm_number_of_zeros T (c + 1) := rfl
    rw [hwnz] at hrs1 hrs2 hrs3 hrs4 hrs5 hrs6
    refine ⟨_, wm_from_fn_ge2 T T.length c hb64, rfl, ?_⟩
    have hlslen : ∀ lbits : List Nat,
        (wm_build_rest T T.length (c + 1) lbits).length = c + 1 :=
      fun lbits => wm_build_rest_length T T.length c lbits
    refine ⟨?_, ?_, rfl, ?_, ?_, ?_, ?_⟩
    · intro j hj
      rw [hlslen]
      exact hrs1 j hj
    · intro j hj
      exact hrs2 j hj
    · intro hne
      rw [hlslen]
      exact hwnz.symm
    · intro v hv
      rw [hlslen]
      exact hT v hv
    · have hineq : T.length ≤ 64 * ((T.length + 63) / 64) := by omega
      rw [← hrs3] at hineq
      exact hineq
    · rw [hlslen]
      apply wm_build_rest_realizes
      · rw [wm_step_length]
      · intro v hv
        exact wm_step_lt _ _ _ hv
      · intro j hj
        rw [wm_step_countP (c + 1) j T (by omega)]
        rfl
      · intro j hj
        exact hrs4 j hj
      · intro p hp
        exact hrs5 p hp
      · rw [hrs6]
        omega

/-- `WaveletMatrix::get` on a matrix that realizes a symbol list behaves as
list indexing. -/
theorem wm_get_spec (wm : WaveletMatrix) (T : List Nat) (hlen : wm.len = T.length)
    (hreal : levels_realize wm.levels T) (i : Nat) :
    wm_get wm i = T.get? i := by
  unfold wm_get
  by_cases hi : i < T.length
  · rw [if_neg (by omega)]
    obtain ⟨ifin, hfold⟩ := wm_descent wm.levels T hreal i hi 0
    rw [hfold, get?_eq_some_getD T i hi]
    simp only [Option.map_some']
    rw [Nat.zero_mul, Nat.zero_add]
  · rw [if_pos (by omega)]
    exact (List.get?_eq_none.mpr (by omega)).symm

theorem ofBits_lt : ∀ bs : List Bool, ofBits bs < 2 ^ bs.length := by
  intro bs
  induction bs with
  | nil =>
    simp [ofBits]
  | cons b bs ih =>
    show (if b then 1 else 0) + 2 * ofBits bs < 2 ^ (b :: bs).length
    rw [List.length_cons, pow_succ]
    cases b
    · simp only [Bool.false_eq_true, reduceIte]
      omega
    · simp only [reduceIte]
      omega

theorem get_bits_lt (wsrc : List Nat) (pos w : Nat) : get_bits wsrc pos w < 2 ^ w := by
  unfold get_bits
  have h := ofBits_lt ((List.range w).map (fun k => get_bit wsrc (pos + k)))
  rwa [List.length_map, List.length_range] at h

/-! ## The claims -/

/-- C1: for the rank/select array built from `M` words, `try_rank i` returns
`some` of the number of ones among the first `i` bits whenever `i < 64*M`,
and `none` for `i ≥ 64*M` (so `try_rank 0 = none` on the empty array). -/
theorem C1_try_rank_correct (content : List Nat) (i : Nat) :
    (ArrayWithRankSelect101111.ofContent content).try_rank i
      = if i < 64 * content.length then some (rank_naive content i) else none :=
  try_rank_spec content i

/-- C2: `try_select k` is `none` exactly when `k` is at least the total
number of ones, and any returned position carries a one with exactly `k`
ones before it, so `try_rank (try_select k) = some k`; symmetrically for
`try_select0` over zeros. -/
theorem C2_select_contract (content : List Nat) (k p : Nat) :
    (((ArrayWithRankSelect101111.ofContent content).try_select k = none
        ↔ count_bits_in content ≤ k)
      ∧ ((ArrayWithRankSelect101111.ofContent content).try_select k = some p
        → get_bit content p = true ∧ rank_naive content p = k
          ∧ (ArrayWithRankSelect101111.ofContent content).try_rank p = some k))
    ∧ (((ArrayWithRankSelect101111.ofContent content).try_select0 k = none
        ↔ 64 * content.length - count_bits_in content ≤ k)
      ∧ ((ArrayWithRankSelect101111.ofContent content).try_select0 k = some p
        → get_bit content p = false ∧ p - rank_naive content p = k
          ∧ (ArrayWithRankSelect101111.ofContent content).try_rank0 p = some k)) := by
  constructor
  · constructor
    · show binary_rank_search_select content k = none ↔ count_bits_in content ≤ k
      rw [select_policies_agree]
      unfold combined_sampling_select
      rw [List.get?_eq_none, one_positions_length]
    · intro hp
      have h2 : combined_sampling_select content k = some p := by
        rw [← select_policies_agree]
        exact hp
      obtain ⟨h1, h2b, h3⟩ := (one_positions_get? content k p).mp h2
      refine ⟨h2b, h3, ?_⟩
      rw [try_rank_spec, if_pos h1, h3]
  · constructor
    · show binary_rank_search_select0 content k = none
        ↔ 64 * content.length - count_bits_in content ≤ k
      rw [select0_policies_agree]
      unfold combined_sampling_select0
      rw [List.get?_eq_none, zero_positions_length]
    · intro hp
      have h2 : combined_sampling_select0 content k = some p := by
        rw [← select0_policies_agree]
        exact hp
      obtain ⟨h1, h2b, h3⟩ := (zero_positions_get? content k p).mp h2
      refine ⟨h2b, h3, ?_⟩
      rw [ArrayWithRankSelect101111.try_rank0, try_rank_spec, if_pos h1]
      simp only [Option.map_some']
      rw [h3]

/-- C3: counterexample to the Elias-Fano round-trip claim on `index_of`.  For
the non-decreasing sequence of 29 zeros followed by 34 in `Builder::new(30, 35)`
(every value below the universe 35), the claim requires `index_of 34 = some 29`;
the implementation's `geq_position_uncorrected` falls back past the end when
`select0(34)` on the upper bits fails, so `index_of 34` returns `none` (the
total model; the real code's position walk reads the upper-bit array out of
bounds). -/
theorem C3_index_of_diverges :
    (ef_build 30 35 (List.replicate 29 0 ++ [34])).map (fun s => s.index_of 34)
      = some none := by
  decide

/-- C4: a wavelet matrix built by `from_fn` from any symbol stream `T` of
width `b ∈ [1, 64]` answers `get i` with `T[i]` for `i < T.length` and `none`
past the end; `from_bits` behaves the same on the fragment list of a packed
word array. -/
theorem C4_wavelet_access (T : List Nat) (b : Nat) (content : List Nat) (N i : Nat)
    (hb1 : 1 ≤ b) (hb64 : b ≤ 64) (hT : ∀ v ∈ T, v < 2 ^ b) :
    (wm_from_fn T T.length b).map (fun wm => wm_get wm i) = some (T.get? i)
    ∧ (wm_from_bits content N b).map (fun wm => wm_get wm i)
      = some (((List.range N).map (fun j => get_fragment content j b)).get? i) := by
  constructor
  · obtain ⟨wm, heq, hlen, hreal⟩ := wm_from_fn_realizes T b hb1 hb64 hT
    rw [heq]
    simp only [Option.map_some']
    rw [wm_get_spec wm T hlen hreal i]
  · have hT2len : ((List.range N).map (fun j => get_fragment content j b)).length = N := by
      rw [List.length_map, List.length_range]
    have hT2 : ∀ v ∈ (List.range N).map (fun j => get_fragment content j b),
        v < 2 ^ b := by
      intro v hv
      obtain ⟨j, _, hj⟩ := List.mem_map.mp hv
      rw [← hj]
      exact get_bits_lt content (j * b) b
    obtain ⟨wm, heq, hlen, hreal⟩ := wm_from_fn_realizes
      ((List.range N).map (fun j => get_fragment content j b)) b hb1 hb64 hT2
    rw [hT2len] at heq
    unfold wm_from_bits
    rw [heq]
    simp only [Option.map_some']
    rw [wm_get_spec wm _ hlen hreal i]

/-- Witness for C4 at the stream `[3, 1, 0, 2]` of width 2 and the packed
array `[107]` (fragments `3, 2`). -/
theorem C4_wavelet_access_witness :
    (1 ≤ 2 ∧ 2 ≤ 64 ∧ ∀ v ∈ [3, 1, 0, 2], v < 2 ^ 2)
    ∧ ((wm_from_fn [3, 1, 0, 2] (List.length [3, 1, 0, 2]) 2).map (fun wm => wm_get wm 1)
        = some ([3, 1, 0, 2].get? 1)
      ∧ (wm_from_bits [107] 2 2).map (fun wm => wm_get wm 1)
        = some (((List.range 2).map (fun j => get_fragment [107] j 2)).get? 1)) :=
  ⟨⟨by decide, by decide, by decide⟩,
    C4_wavelet_access [3, 1, 0, 2] 2 [107] 2 1 (by decide) (by decide) (by decide)⟩

/-- C5: for every bit pattern and every `k`, the `BinaryRankSearch` and
`CombinedSampling` select policies return identical `try_select` and
`try_select0` results. -/
theorem C5_select_policy_equivalence (content : List Nat) (k : Nat) :
    (ArrayWithRankSelect101111.ofContent content).try_select k
        = (ArrayWithRankSelect101111.ofContent content).try_select_cs k
    ∧ (ArrayWithRankSelect101111.ofContent content).try_select0 k
        = (ArrayWithRankSelect101111.ofContent content).try_select0_cs k :=
  ⟨select_policies_agree content k, select0_policies_agree content k⟩

/-- C6: counterexample to `geq_index v = |{i : S[i] < v}|` for values above
the universe.  For the sequence `[0]` built in `Builder::new(1, 1)` and
`v = 64`, one stored value is below `v`, yet `geq_index 64 = 0` and
`try_rank 64 = some 0`: the `select0` fallback `unwrap_or(len * 64)` lands on
`hi_index = 64`, making `lo_index = hi_index - value_hi = 0`. -/
theorem C6_geq_index_diverges :
    (ef_build 1 1 [0]).map (fun s => (s.geq_index 64, s.try_rank 64))
      = some (0, some 0) := by
  decide

/-- C7: counterexample to the claimed totality of `try_count_in_range` and
`try_rank` for `i = N`.  For 64 zero symbols at width 1, the bounds check
`self.len() < range.end` admits `range.end = 64`, and the panicking
`rank(64)` then indexes `content[1]` in a one-word bit array: the call
panics (`none` in the model) instead of returning `some 64`. -/
theorem C7_try_rank_panics :
    (wm_from_fn (List.replicate 64 0) 64 1).map (fun wm => wm_try_rank wm 64 0)
      = some none := by
  decide

/-- C8: the true L2 entry layout.  Relative to the base rank in bits
`[0..32)`, the deltas sit in the REVERSE of the claimed order: `r1 - r0` in
the 10-bit field at bits `[54..64)`, `r2 - r0` at bits `[43..54)`, `r3 - r0`
at bits `[32..43)`; the query reads the delta of sub-block `sub` through the
branch-free shift `(entry >>> 32) >>> (33 - 11*sub) &&& 2047`. -/
theorem C8_l2_entry_layout (content : List Nat) (e : Nat)
    (hfull : 32 * (e + 1) ≤ content.length) :
    ((build content).1.getD (2048 * e / 2 ^ 32) 0
        + ((build content).2.1.getD e 0 &&& 4294967295)
      = rank_naive content (2048 * e))
    ∧ (((build content).2.1.getD e 0 >>> 54) &&& 1023
      = rank_naive content (2048 * e + 512) - rank_naive content (2048 * e))
    ∧ (((build content).2.1.getD e 0 >>> 43) &&& 2047
      = rank_naive content (2048 * e + 1024) - rank_naive content (2048 * e))
    ∧ (((build content).2.1.getD e 0 >>> 32) &&& 2047
      = rank_naive content (2048 * e + 1536) - rank_naive content (2048 * e))
    ∧ (∀ sub : Nat, sub < 4 →
      (((build content).2.1.getD e 0 >>> 32) >>> (33 - 11 * sub)) &&& 2047
        = rank_naive content (2048 * e + 512 * sub) - rank_naive content (2048 * e)) :=
  l2_layout_spec content e hfull

/-- Witness for C8 on a full 32-word all-ones block. -/
theorem C8_l2_entry_layout_witness :
    32 * (0 + 1) ≤ (List.replicate 32 (1 : Nat)).length
    ∧ (((build (List.replicate 32 1)).2.1.getD 0 0 >>> 54) &&& 1023
      = rank_naive (List.replicate 32 1) (2048 * 0 + 512)
        - rank_naive (List.replicate 32 1) (2048 * 0)) :=
  ⟨by decide, (C8_l2_entry_layout (List.replicate 32 1) 0 (by decide)).2.1⟩

set_option maxRecDepth 8000 in
/-- C8 counterexample: on the word array `[1, 0, ..., 0]` (nine words), the
claimed 10-bit field at bits `[32..42)` of the packed L2 entry holds 1023
(the filler of the incomplete fourth sub-block), not `r1 - r0 = 1` as the
spec's layout asserts. -/
theorem C8_claimed_layout_refuted :
    ¬((((build [1, 0, 0, 0, 0, 0, 0, 0, 0]).2.1.getD 0 0 >>> 32) &&& 1023)
      = rank_naive [1, 0, 0, 0, 0, 0, 0, 0, 0] 512
        - rank_naive [1, 0, 0, 0, 0, 0, 0, 0, 0] 0) := by
  decide

/-- C9: counterexample to the cursor-flag claim.  On the one-element sequence
`[0]`, the cursor at `begin_position` (not past the end) already answers
`is_end = true`, `is_valid` agrees with `is_end` instead of negating it
(their bodies are identical in the source), and `advance` on this valid
cursor returns `false` without moving. -/
theorem C9_cursor_flags_diverge :
    (ef_build 1 1 [0]).map (fun s =>
      (s.is_end s.begin_position, s.is_valid s.begin_position,
        (s.advance s.begin_position).1))
      = some (true, true, false) := by
  decide

/-- C10: `Builder::new` with a positive length but universe 0 yields a
builder with `target_len = 0`: every `push` fails (models the panic), yet
`finish` succeeds and returns the empty sequence. -/
theorem C10_zero_universe_builder (n v : Nat) (hn : 0 < n) :
    (Builder.new n 0).target_len = 0
    ∧ (Builder.new n 0).push v = none
    ∧ (Builder.new n 0).finish.map (fun s => s.len) = some 0 := by
  have hnew : Builder.new n 0 = ⟨[], [], 0, 0, 0, 0, 0⟩ := by
    unfold Builder.new
    rw [if_pos (Or.inr rfl)]
  rw [hnew]
  refine ⟨rfl, ?_, rfl⟩
  unfold Builder.push
  rw [if_neg (by
    rintro ⟨h1, _⟩
    exact Nat.not_lt_zero v h1)]

/-- Witness for C10 at `final_len = 5`, pushed value 3. -/
theorem C10_zero_universe_builder_witness :
    0 < 5 ∧ ((Builder.new 5 0).target_len = 0
      ∧ (Builder.new 5 0).push 3 = none
      ∧ (Builder.new 5 0).finish.map (fun s => s.len) = some 0) :=
  ⟨by decide, C10_zero_universe_builder 5 3 (by decide)⟩

end BSuccinct
